import Mathlib

set_option linter.unusedSectionVars false

/-!
Shallow embedding of `MultiValueMap.h` (TAFFO, `src/lib/TaffoUtils/MultiValueMap.h`):
an ordered map from groups of keys to owned values.

The backing store is a `std::list<KeyListItemT>` of slots.  A slot is a *tag*
(owns the group's value, `Value` non-null) or an *item* (holds one key and an
iterator `TagIt` back to its group's tag).  A separate `llvm::ValueMap` index
maps each key to the list iterator of the item slot holding it.

Modelling conventions:
* `std::list` nodes have stable addresses; we give every slot a numeric `Id`
  (allocation order, drawn from `NextId`) and model list iterators as
  `Option Nat`: `some id` points at the node with that id, `none` is `end()`.
* The `llvm::ValueMap` index is modelled as an association list `List (K × Nat)`
  from key to the `Id` of the item slot holding it.
* `long long` arithmetic on `OrderIdx` is modelled on `Int` with `Int.tdiv`
  (C++ integer division truncates toward zero).  Signed overflow is undefined
  behaviour in C++ and is flagged as unhandled in the source
  (`// TODO: CATCH OVERFLOWS/...`); the model is the non-overflowing envelope.
* `MultiValueMapIterator::operator==` calls `skipTagForward()` on both
  operands, mutating them through a `mutable` member; the definitions below
  thread those skips explicitly wherever the source compares iterators.
* Dereferencing `end()` (undefined behaviour in C++) yields `none` /
  leaves the state unchanged; each such spot is marked with a comment.
-/

namespace Taffo

/-- One node of the backing `std::list<KeyListItemT>`.
`Value` mirrors `std::unique_ptr<ValueT> Value` (`some` iff the node is a tag);
`Key` is set only on item nodes; `TagIt` stores the id of the node the
`KeyListT::iterator TagIt` field points to (`none` = singular/end iterator);
`Id` is the node's stable identity (its heap address in the source). -/
structure KeyListItemT (K V : Type) where
  Value : Option V
  Key : Option K
  TagIt : Option Nat
  OrderIdx : Int
  Id : Nat
  deriving Repr, DecidableEq

/-- `KeyListItemT::isTag`: a node is a tag iff it owns a value. -/
def isTag {K V : Type} (s : KeyListItemT K V) : Bool :=
  s.Value.isSome

/-- The container state: the slot list, the key index
(`llvm::ValueMap<KeyT, KeyListT::iterator>` as an association list
key ↦ item-node id), the `OrderIdxSpacing` constant, and the allocation
counter `NextId` supplying fresh node identities. -/
structure MultiValueMap (K V : Type) where
  KeyList : List (KeyListItemT K V)
  Index : List (K × Nat)
  OrderIdxSpacing : Int
  NextId : Nat
  deriving Repr, DecidableEq

/-- A `MultiValueMapIterator`, reduced to its `IKeyList` member:
`some id` points at the list node with identity `id`, `none` is `end()`. -/
abbrev Iter := Option Nat

variable {K V : Type} [DecidableEq K]

/-- Lookup in the association list modelling the `llvm::ValueMap` index. -/
def indexFind : List (K × Nat) → K → Option Nat
  | [], _ => none
  | p :: rest, k => if p.1 = k then some p.2 else indexFind rest k

/-- `Index[K] = It`: replace the entry for `k`, or add one. -/
def indexInsert : List (K × Nat) → K → Nat → List (K × Nat)
  | [], k, n => [(k, n)]
  | p :: rest, k, n => if p.1 = k then (k, n) :: rest else p :: indexInsert rest k n

/-- `Index.erase(K)`: drop the entry for `k`, if any. -/
def indexErase : List (K × Nat) → K → List (K × Nat)
  | [], _ => []
  | p :: rest, k => if p.1 = k then rest else p :: indexErase rest k

namespace MultiValueMap

/-- A default-constructed `MultiValueMap`: empty list, empty index,
`OrderIdxSpacing = 0x100000`. -/
def mk0 : MultiValueMap K V :=
  ⟨[], [], 0x100000, 0⟩

/-- The list node an iterator points at, if any
(dereferencing `end()` or a dangling iterator gives `none`). -/
def slotById (m : MultiValueMap K V) : Iter → Option (KeyListItemT K V)
  | none => none
  | some i => m.KeyList.find? (fun s => s.Id == i)

/-- Sequence position of an iterator: node position for a live node,
`KeyList.length` for `end()` (and for a dangling id, which the source
could only reach through undefined behaviour). -/
def posOfIter (m : MultiValueMap K V) : Iter → Nat
  | none => m.KeyList.length
  | some i => m.KeyList.findIdx (fun s => s.Id == i)

/-- The iterator at a given sequence position (`none` = `end()` when past it). -/
def iterAtPos (m : MultiValueMap K V) (p : Nat) : Iter :=
  (m.KeyList[p]?).map (·.Id)

/-- `MultiValueMapIterator::skipTagForward`: if not at `end()` and on a tag,
advance one node. -/
def skipTagForward (m : MultiValueMap K V) (it : Iter) : Iter :=
  match slotById m it with
  | some s => if isTag s then iterAtPos m (posOfIter m it + 1) else it
  | none => it

/-- `MultiValueMapIterator::operator++`:
`skipTagForward(); IKeyList++; skipTagForward();`. -/
def iterNext (m : MultiValueMap K V) (it : Iter) : Iter :=
  let it1 := skipTagForward m it
  let it2 := iterAtPos m (posOfIter m it1 + 1)
  skipTagForward m it2

/-- `begin()`: iterator at the head of the slot list. -/
def beginIter (m : MultiValueMap K V) : Iter :=
  iterAtPos m 0

/-- `end()`. -/
def endIter (_ : MultiValueMap K V) : Iter :=
  none

/-- `MultiValueMapIterator::operator==`: both operands run `skipTagForward`
(through the `mutable IKeyList`), then the node pointers are compared. -/
def iterEq (m : MultiValueMap K V) (a b : Iter) : Bool :=
  skipTagForward m a == skipTagForward m b

/-- `MultiValueMapIterator::operator*`: skip a tag, then yield the item's key
paired with `*(IKeyList->TagIt->Value)`.  `none` marks the dereferences that
are undefined behaviour in the source (at `end()`, or a tagless node). -/
def derefIter (m : MultiValueMap K V) (it : Iter) : Option (K × V) :=
  match slotById m (skipTagForward m it) with
  | none => none
  | some s =>
    match s.Key, (slotById m s.TagIt).bind (·.Value) with
    | some k, some v => some (k, v)
    | _, _ => none

/-- `MultiValueMapIterator::operator<=`: the left operand is skipped
(the right is not), node equality short-circuits, otherwise the `OrderIdx`
fields are compared.  Comparisons that would dereference `end()` in the
source are undefined behaviour; the model returns `false` there. -/
def iterLE (m : MultiValueMap K V) (a b : Iter) : Bool :=
  let a1 := skipTagForward m a
  if a1 == b then true
  else
    match slotById m a1, slotById m b with
    | some sa, some sb => decide (sa.OrderIdx ≤ sb.OrderIdx)
    | _, _ => false

/-- `empty()`. -/
def empty (m : MultiValueMap K V) : Bool :=
  m.KeyList.isEmpty

/-- `size()`: number of index entries. -/
def size (m : MultiValueMap K V) : Nat :=
  m.Index.length

/-- `clear()`. -/
def clear (m : MultiValueMap K V) : MultiValueMap K V :=
  { m with KeyList := [], Index := [] }

/-- `count(K)`: 1 if the index has an entry for `k`, else 0. -/
def count (m : MultiValueMap K V) (k : K) : Nat :=
  if (indexFind m.Index k).isSome then 1 else 0

/-- `find(K)`: `end()` if the index misses, else an iterator at the item node. -/
def find (m : MultiValueMap K V) (k : K) : Iter :=
  match indexFind m.Index k with
  | none => none
  | some nid => some nid

/-- `lookup(K)`: `*(Index[K]->TagIt->Value)`, `none` when absent
(the source returns a default-constructed `ValueT` there). -/
def lookup (m : MultiValueMap K V) (k : K) : Option V :=
  match indexFind m.Index k with
  | none => none
  | some nid => (slotById m (some nid)).bind fun s => (slotById m s.TagIt).bind (·.Value)

/-- `getAssociatedValues(K, OutV)`: `none` models the `false` return;
otherwise the keys of the item nodes following the group's tag, in order. -/
def getAssociatedValues (m : MultiValueMap K V) (k : K) : Option (List K) :=
  let I := skipTagForward m (find m k)
  if I = none then none
  else
    match (slotById m I).bind (·.TagIt) with
    | none => none
    | some tid =>
      let tp := m.KeyList.findIdx (fun s => s.Id == tid)
      some ((((m.KeyList.drop (tp + 1)).takeWhile (fun s => !isTag s)).filterMap (·.Key)))

/-- `orderIdxForNewElem(Pos)` for an insertion before sequence position `p`. -/
def orderIdxForNewElem (m : MultiValueMap K V) (p : Nat) : Int :=
  if p = 0 then
    match m.KeyList[0]? with
    | some s => s.OrderIdx - m.OrderIdxSpacing
    | none => 0
  else if p = m.KeyList.length then
    match m.KeyList[p - 1]? with
    | some s => s.OrderIdx + m.OrderIdxSpacing
    | none => 0
  else
    match m.KeyList[p - 1]?, m.KeyList[p]? with
    | some a, some b => Int.tdiv (a.OrderIdx + b.OrderIdx) 2
    | _, _ => 0

/-- `KeyList.insert(pos, x)`: insert a node before sequence position `p`. -/
def listInsertAt (l : List (KeyListItemT K V)) (p : Nat) (a : KeyListItemT K V) :
    List (KeyListItemT K V) :=
  l.take p ++ a :: l.drop p

/-- `MultiValueMapIterator::insertionPointerForNewList`: move the raw position
to the nearest group boundary (begin/end stay; a preceding tag pulls one back;
otherwise scan forward to the next tag or `end()`). -/
def insertionPointerForNewList (m : MultiValueMap K V) (P : Iter) : Nat :=
  let p := posOfIter m P
  if p = 0 ∨ p = m.KeyList.length then p
  else
    match m.KeyList[p - 1]? with
    | some prev =>
      if isTag prev then p - 1
      else p + (m.KeyList.drop p).findIdx (fun s => isTag s)
    | none => p

/-- `MultiValueMapIterator::leftInsertionPointer`: the insertion position and
the `TagIt` value for a key joining the group on the left. -/
def leftInsertionPointer (m : MultiValueMap K V) (P : Iter) : Nat × Option Nat :=
  let p := posOfIter m P
  if p = 0 then (0, iterAtPos m 0)
  else
    match m.KeyList[p - 1]? with
    | some prev =>
      if isTag prev ∧ p - 1 ≠ 0 then
        match m.KeyList[p - 2]? with
        | some prev2 => (p - 1, prev2.TagIt)
        | none => (p - 1, none)
      else (p, prev.TagIt)
    | none => (p, none)

/-- `MultiValueMapIterator::rightInsertionPointer`: skip a tag, then the
current node's position and its `TagIt`. -/
def rightInsertionPointer (m : MultiValueMap K V) (P : Iter) : Nat × Option Nat :=
  let p := posOfIter m P
  if p = m.KeyList.length then (p, none)
  else
    let P1 := skipTagForward m P
    let p1 := posOfIter m P1
    match m.KeyList[p1]? with
    | some s => (p1, s.TagIt)
    | none => (p1, none)

/-- `insert(iterator P, const KeyT &K, const ValueT &V)`: fail if the key is
present, else create a fresh tag node and item node at the fixed-up position.
Returns (new state, result iterator, success flag). -/
def insert (m : MultiValueMap K V) (P : Iter) (k : K) (v : V) :
    MultiValueMap K V × Iter × Bool :=
  let Existing := skipTagForward m (find m k)
  if Existing ≠ none then (m, Existing, false)
  else
    let FixedP := insertionPointerForNewList m P
    let tagId := m.NextId
    let NewTag : KeyListItemT K V :=
      { Value := some v, Key := none, TagIt := some tagId,
        OrderIdx := orderIdxForNewElem m FixedP, Id := tagId }
    let m1 : MultiValueMap K V :=
      { m with KeyList := listInsertAt m.KeyList FixedP NewTag, NextId := m.NextId + 1 }
    let itmId := m1.NextId
    let NewItem : KeyListItemT K V :=
      { Value := none, Key := some k, TagIt := some tagId,
        OrderIdx := orderIdxForNewElem m1 (FixedP + 1), Id := itmId }
    let m2 : MultiValueMap K V :=
      { m1 with KeyList := listInsertAt m1.KeyList (FixedP + 1) NewItem,
                Index := indexInsert m1.Index k itmId, NextId := m1.NextId + 1 }
    (m2, some itmId, true)

/-- `push_back(const KeyT &K, const ValueT &V)` = `insert(end(), K, V)`. -/
def push_back (m : MultiValueMap K V) (k : K) (v : V) :
    MultiValueMap K V × Iter × Bool :=
  insert m none k v

/-- `insertRight(iterator P, const KeyT &K)`: attach `k` to the group to the
right of `P`.  The `P == end()` guard skips `P` (mutable iterator), and a
failure returns that skipped iterator. -/
def insertRight (m : MultiValueMap K V) (P : Iter) (k : K) :
    MultiValueMap K V × Iter × Bool :=
  let P1 := skipTagForward m P
  if P1 = none then (m, P1, false)
  else if (indexFind m.Index k).isSome then (m, P1, false)
  else
    let ip := rightInsertionPointer m P1
    let itmId := m.NextId
    let NewItem : KeyListItemT K V :=
      { Value := none, Key := some k, TagIt := ip.2,
        OrderIdx := orderIdxForNewElem m ip.1, Id := itmId }
    ({ m with KeyList := listInsertAt m.KeyList ip.1 NewItem,
              Index := indexInsert m.Index k itmId, NextId := m.NextId + 1 },
     some itmId, true)

/-- `insertLeft(iterator P, const KeyT &K)`: attach `k` to the group to the
left of `P`.  The `P == begin()` guard skips both `P` and `begin()`. -/
def insertLeft (m : MultiValueMap K V) (P : Iter) (k : K) :
    MultiValueMap K V × Iter × Bool :=
  let P1 := skipTagForward m P
  if P1 = skipTagForward m (beginIter m) then (m, P1, false)
  else if (indexFind m.Index k).isSome then (m, P1, false)
  else
    let ip := leftInsertionPointer m P1
    let itmId := m.NextId
    let NewItem : KeyListItemT K V :=
      { Value := none, Key := some k, TagIt := ip.2,
        OrderIdx := orderIdxForNewElem m ip.1, Id := itmId }
    ({ m with KeyList := listInsertAt m.KeyList ip.1 NewItem,
              Index := indexInsert m.Index k itmId, NextId := m.NextId + 1 },
     some itmId, true)

/-- `erase(iterator I)`: skip a tag, drop the item node and its index entry;
if the node now at that position is a tag and the previous node is the item's
`TagIt`, the group is empty and its tag is dropped too.  When the erased item
was the last node, the source reads `Itm->isTag()` on `end()` (undefined
behaviour); the model takes that read to be `false` (the sentinel owns no
value), so the tag stays. -/
def eraseIt (m : MultiValueMap K V) (I : Iter) : MultiValueMap K V × Iter :=
  let I1 := skipTagForward m I
  let q := posOfIter m I1
  match m.KeyList[q]? with
  | none => (m, I1)
  | some itm =>
    let Index1 := match itm.Key with
      | some k => indexErase m.Index k
      | none => m.Index
    let kl1 := m.KeyList.eraseIdx q
    let emptied :=
      match kl1[q]?, kl1[q - 1]? with
      | some nxt, some prv => isTag nxt && (some prv.Id == itm.TagIt)
      | _, _ => false
    if emptied then
      let tpos := kl1.findIdx (fun s => some s.Id == itm.TagIt)
      ({ m with KeyList := kl1.eraseIdx tpos, Index := Index1 },
       (kl1[q]?).map (·.Id))
    else
      ({ m with KeyList := kl1, Index := Index1 }, (kl1[q]?).map (·.Id))

/-- `erase(const KeyT &K)`: `find`, fail on `end()`, else positional erase. -/
def erase (m : MultiValueMap K V) (k : K) : MultiValueMap K V × Bool :=
  let KI := find m k
  if skipTagForward m KI = none then (m, false)
  else ((eraseIt m KI).1, true)

/-- The `while (Ptr != end && !Ptr->isTag())` loop of `eraseAll(iterator)`,
acting on the list suffix after the erased tag: drop item nodes and their
index entries until a tag or the end. -/
def eraseAllLoop (idx : List (K × Nat)) :
    List (KeyListItemT K V) → List (K × Nat) × List (KeyListItemT K V)
  | [] => (idx, [])
  | s :: rest =>
    if isTag s then (idx, s :: rest)
    else
      eraseAllLoop (match s.Key with | some k => indexErase idx k | none => idx) rest

/-- `eraseAll(iterator I)`: erase the whole group of the node `I` points at
(its tag, then every item of the run).  Dereferencing `end()` or a dangling
iterator is undefined behaviour in the source; the model leaves the state
unchanged there. -/
def eraseAllIt (m : MultiValueMap K V) (I : Iter) : MultiValueMap K V × Iter :=
  match (slotById m I).bind (·.TagIt) with
  | none => (m, I)
  | some tid =>
    let tpos := m.KeyList.findIdx (fun s => s.Id == tid)
    let kl1 := m.KeyList.eraseIdx tpos
    let r := eraseAllLoop m.Index (kl1.drop tpos)
    let m1 : MultiValueMap K V :=
      { m with KeyList := kl1.take tpos ++ r.2, Index := r.1 }
    (m1, iterAtPos m1 tpos)

/-- `eraseAll(const KeyT &K)`. -/
def eraseAll (m : MultiValueMap K V) (k : K) : MultiValueMap K V × Bool :=
  let KI := find m k
  if skipTagForward m KI = none then (m, false)
  else ((eraseAllIt m KI).1, true)

/-- `SingleValueIndexConfig::onRAUW`: the identity-change hook run when a key
is replaced.  An existing entry for the new key is erased, then the old key's
entry (if any) is reattached under the new name via `insertRight` + `erase`.
The `!= end()` comparisons skip their mutable operands, evaluated against the
state current at that point. -/
def onKeyReplaced (m : MultiValueMap K V) (oldK newK : K) : MultiValueMap K V :=
  let OldKIt := find m oldK
  let NewKIt := find m newK
  let m1 := if skipTagForward m NewKIt ≠ none then (eraseIt m NewKIt).1 else m
  if skipTagForward m1 OldKIt ≠ none then
    let m2 := (insertRight m1 OldKIt newK).1
    (eraseIt m2 OldKIt).1
  else m1

/-- `SingleValueIndexConfig::onDelete`: erase the deleted key's single item
slot, if present. -/
def onKeyDeleted (m : MultiValueMap K V) (k : K) : MultiValueMap K V :=
  let KIt := find m k
  if skipTagForward m KIt ≠ none then (eraseIt m KIt).1 else m

/-- Logical iteration content: every item node in sequence order, paired with
its group's value (what a full `begin()`→`end()` traversal dereferences). -/
def toPairs (m : MultiValueMap K V) : List (K × V) :=
  m.KeyList.filterMap fun s =>
    match s.Key with
    | some k => ((slotById m s.TagIt).bind (·.Value)).map (fun v => (k, v))
    | none => none

/-- Number of item slots holding key `k` (how many groups `k` belongs to). -/
def keyCount (m : MultiValueMap K V) (k : K) : Nat :=
  m.KeyList.countP (fun s => decide (s.Key = some k))

/-- Structural well-formedness maintained by the container:
node ids are unique and below the allocation counter, `TagIt` fields point
below the allocation counter and only at keyless (tag) nodes, the index is a
map whose entries are exactly the item slots. -/
def WF (m : MultiValueMap K V) : Prop :=
  (m.KeyList.map (·.Id)).Nodup ∧
  (∀ s ∈ m.KeyList, s.Id < m.NextId) ∧
  (∀ s ∈ m.KeyList, ∀ t, s.TagIt = some t → t < m.NextId) ∧
  (∀ s ∈ m.KeyList, ∀ s2 ∈ m.KeyList, s.TagIt = some s2.Id → s2.Key = none) ∧
  (m.Index.map Prod.fst).Nodup ∧
  (∀ p ∈ m.Index, ∃ s ∈ m.KeyList, s.Id = p.2 ∧ s.Key = some p.1 ∧ s.Value = none) ∧
  (∀ s ∈ m.KeyList, ∀ k, s.Key = some k → (k, s.Id) ∈ m.Index)

/-- Order indices are non-decreasing along the backing sequence. -/
def IdxSorted (m : MultiValueMap K V) : Prop :=
  (m.KeyList.map (·.OrderIdx)).Pairwise (· ≤ ·)

/-- Combined run-time invariant. -/
def Inv (m : MultiValueMap K V) : Prop :=
  WF m ∧ IdxSorted m ∧ 0 ≤ m.OrderIdxSpacing

/-- Checks that a list suffix is a sequence of groups: a tag node (keyless,
`TagIt` pointing at itself) followed by item nodes whose `TagIt` is the
enclosing tag (`tid`).  Groups may be empty. -/
def groupRun : Option Nat → List (KeyListItemT K V) → Bool
  | _, [] => true
  | tid, s :: rest =>
    if isTag s then s.Key.isNone && (s.TagIt == some s.Id) && groupRun (some s.Id) rest
    else s.Key.isSome && tid.isSome && (s.TagIt == tid) && groupRun tid rest

/-- The backing list decomposes into groups (tag followed by its items). -/
def wellGrouped (m : MultiValueMap K V) : Bool :=
  groupRun none m.KeyList

/-- Two keys are held by item slots of the same group. -/
def sameGroup (m : MultiValueMap K V) (k1 k2 : K) : Prop :=
  ∃ t : Nat,
    (∃ s1 ∈ m.KeyList, s1.Key = some k1 ∧ s1.TagIt = some t) ∧
    (∃ s2 ∈ m.KeyList, s2.Key = some k2 ∧ s2.TagIt = some t)

end MultiValueMap

/-- One call of the public mutating interface (keys and values drawn from
`Nat`, positions given as raw iterator values). -/
inductive Op where
  | opInsert (P : Iter) (k v : Nat)
  | opInsertLeft (P : Iter) (k : Nat)
  | opInsertRight (P : Iter) (k : Nat)
  | opErase (k : Nat)
  | opEraseIt (P : Iter)
  | opEraseAll (k : Nat)
  | opEraseAllIt (P : Iter)
  | opPushBack (k v : Nat)
  | opClear
  | opKeyReplaced (k1 k2 : Nat)
  | opKeyDeleted (k : Nat)
  deriving Repr, DecidableEq

/-- Apply one public operation (result values are discarded). -/
def step (m : MultiValueMap Nat Nat) : Op → MultiValueMap Nat Nat
  | .opInsert P k v => (m.insert P k v).1
  | .opInsertLeft P k => (m.insertLeft P k).1
  | .opInsertRight P k => (m.insertRight P k).1
  | .opErase k => (m.erase k).1
  | .opEraseIt P => (m.eraseIt P).1
  | .opEraseAll k => (m.eraseAll k).1
  | .opEraseAllIt P => (m.eraseAllIt P).1
  | .opPushBack k v => (m.push_back k v).1
  | .opClear => m.clear
  | .opKeyReplaced k1 k2 => m.onKeyReplaced k1 k2
  | .opKeyDeleted k => m.onKeyDeleted k

/-- The state after a sequence of public operations on a fresh container. -/
def runOps (ops : List Op) : MultiValueMap Nat Nat :=
  ops.foldl step .mk0

/-! ### Association-list kit for the index -/

section IndexKit

variable {K V : Type} [DecidableEq K]

theorem indexFind_eq_none_iff {idx : List (K × Nat)} {k : K} :
    indexFind idx k = none ↔ ∀ p ∈ idx, p.1 ≠ k := by
  induction idx with
  | nil => simp [indexFind]
  | cons p rest ih =>
    by_cases h : p.1 = k <;> simp [indexFind, h, ih]

theorem indexFind_mem {idx : List (K × Nat)} {k : K} {n : Nat}
    (h : indexFind idx k = some n) : (k, n) ∈ idx := by
  induction idx with
  | nil => simp [indexFind] at h
  | cons p rest ih =>
    obtain ⟨p1, p2⟩ := p
    by_cases hk : p1 = k
    · subst hk
      simp [indexFind] at h
      subst h
      exact List.mem_cons_self _ _
    · simp [indexFind, hk] at h
      exact List.mem_cons_of_mem _ (ih h)

theorem indexFind_of_mem {idx : List (K × Nat)} {k : K} {n : Nat}
    (hn : (idx.map Prod.fst).Nodup) (h : (k, n) ∈ idx) :
    indexFind idx k = some n := by
  induction idx with
  | nil => simp at h
  | cons p rest ih =>
    simp only [List.map_cons, List.nodup_cons] at hn
    rcases List.mem_cons.1 h with h1 | h1
    · subst h1; simp [indexFind]
    · have hne : p.1 ≠ k := by
        intro he
        exact hn.1 (he ▸ (List.mem_map.2 ⟨(k, n), h1, rfl⟩))
      simp [indexFind, hne, ih hn.2 h1]

theorem indexInsert_of_absent {idx : List (K × Nat)} {k : K} {n : Nat}
    (h : indexFind idx k = none) : indexInsert idx k n = idx ++ [(k, n)] := by
  induction idx with
  | nil => simp [indexInsert]
  | cons p rest ih =>
    by_cases hk : p.1 = k
    · simp [indexFind, hk] at h
    · simp [indexFind, hk] at h
      simp [indexInsert, hk, ih h]

theorem indexErase_of_absent {idx : List (K × Nat)} {k : K}
    (h : indexFind idx k = none) : indexErase idx k = idx := by
  induction idx with
  | nil => simp [indexErase]
  | cons p rest ih =>
    by_cases hk : p.1 = k
    · simp [indexFind, hk] at h
    · simp [indexFind, hk] at h
      simp [indexErase, hk, ih h]

theorem indexErase_subset {idx : List (K × Nat)} {k : K} {p : K × Nat}
    (h : p ∈ indexErase idx k) : p ∈ idx := by
  induction idx with
  | nil => simp [indexErase] at h
  | cons q rest ih =>
    by_cases hk : q.1 = k
    · simp [indexErase, hk] at h
      exact List.mem_cons_of_mem _ h
    · simp only [indexErase, hk, if_false] at h
      rcases List.mem_cons.1 h with h1 | h1
      · exact h1 ▸ List.mem_cons_self _ _
      · exact List.mem_cons_of_mem _ (ih h1)

theorem indexErase_map_fst_sublist (idx : List (K × Nat)) (k : K) :
    ((indexErase idx k).map Prod.fst).Sublist (idx.map Prod.fst) := by
  induction idx with
  | nil => simp [indexErase]
  | cons q rest ih =>
    by_cases hk : q.1 = k
    · simp only [indexErase, hk, if_true, List.map_cons]
      exact (List.sublist_cons_self _ _)
    · simp only [indexErase, hk, if_false, List.map_cons]
      exact ih.cons₂ _

theorem mem_indexErase_of_ne {idx : List (K × Nat)} {k : K} {p : K × Nat}
    (hne : p.1 ≠ k) (h : p ∈ idx) : p ∈ indexErase idx k := by
  induction idx with
  | nil => simp at h
  | cons q rest ih =>
    rcases List.mem_cons.1 h with h1 | h1
    · subst h1
      simp [indexErase, hne]
    · by_cases hk : q.1 = k
      · simpa [indexErase, hk] using h1
      · simp only [indexErase, hk, if_false]
        exact List.mem_cons_of_mem _ (ih h1)

theorem indexFind_indexErase_self {idx : List (K × Nat)} {k : K}
    (hn : (idx.map Prod.fst).Nodup) : indexFind (indexErase idx k) k = none := by
  induction idx with
  | nil => simp [indexErase, indexFind]
  | cons q rest ih =>
    simp only [List.map_cons, List.nodup_cons] at hn
    by_cases hk : q.1 = k
    · simp only [indexErase, hk, if_true]
      rw [indexFind_eq_none_iff]
      intro p hp he
      exact hn.1 (hk ▸ he ▸ List.mem_map.2 ⟨p, hp, rfl⟩)
    · simp [indexErase, hk, indexFind, ih hn.2]

theorem indexFind_indexErase_ne {idx : List (K × Nat)} {k k' : K}
    (hne : k' ≠ k) : indexFind (indexErase idx k) k' = indexFind idx k' := by
  induction idx with
  | nil => simp [indexErase]
  | cons q rest ih =>
    by_cases hk : q.1 = k
    · have hq : q.1 ≠ k' := by rw [hk]; exact fun h => hne h.symm
      simp only [indexErase, if_pos hk]
      simp [indexFind, hq]
    · simp only [indexErase, if_neg hk]
      by_cases hk' : q.1 = k'
      · simp [indexFind, hk']
      · simp [indexFind, hk', ih]

end IndexKit

/-! ### List-surgery kit -/

section ListKit

open MultiValueMap

variable {K V : Type} [DecidableEq K]

theorem listInsertAt_perm (l : List (KeyListItemT K V)) (p : Nat)
    (a : KeyListItemT K V) : (listInsertAt l p a).Perm (a :: l) := by
  unfold listInsertAt
  refine List.Perm.trans List.perm_middle ?_
  rw [List.take_append_drop]

theorem mem_listInsertAt {l : List (KeyListItemT K V)} {p : Nat}
    {a x : KeyListItemT K V} :
    x ∈ listInsertAt l p a ↔ x = a ∨ x ∈ l := by
  rw [(listInsertAt_perm l p a).mem_iff]
  simp

theorem listInsertAt_length (l : List (KeyListItemT K V)) (p : Nat)
    (a : KeyListItemT K V) :
    (listInsertAt l p a).length = l.length + 1 :=
  (listInsertAt_perm l p a).length_eq.trans (by simp)

theorem listInsertAt_getElem?_lt {l : List (KeyListItemT K V)} {p n : Nat}
    {a : KeyListItemT K V} (hp : p ≤ l.length) (hn : n < p) :
    (listInsertAt l p a)[n]? = l[n]? := by
  unfold listInsertAt
  rw [List.getElem?_append, if_pos (by simp; omega), List.getElem?_take, if_pos hn]

theorem listInsertAt_getElem?_self {l : List (KeyListItemT K V)} {p : Nat}
    {a : KeyListItemT K V} (hp : p ≤ l.length) :
    (listInsertAt l p a)[p]? = some a := by
  unfold listInsertAt
  rw [List.getElem?_append_right (by simp [Nat.min_eq_left hp])]
  simp [Nat.min_eq_left hp]

theorem listInsertAt_getElem?_gt {l : List (KeyListItemT K V)} {p n : Nat}
    {a : KeyListItemT K V} (hp : p ≤ l.length) (hn : p < n) :
    (listInsertAt l p a)[n]? = l[n - 1]? := by
  unfold listInsertAt
  rw [List.getElem?_append_right (by simp [Nat.min_eq_left hp]; omega)]
  have hlen : (List.take p l).length = p := by simp [Nat.min_eq_left hp]
  rw [hlen]
  match n, hn with
  | n + 1, _ =>
    have : n + 1 - p = (n - p) + 1 := by omega
    rw [this]
    simp only [List.getElem?_cons_succ]
    rw [List.getElem?_drop]
    congr 1
    omega

theorem listInsertAt_succ (l : List (KeyListItemT K V)) (p : Nat)
    (a b : KeyListItemT K V) :
    listInsertAt (listInsertAt l p a) (p + 1) b =
      l.take p ++ a :: b :: l.drop p := by
  induction p generalizing l with
  | zero => simp [listInsertAt]
  | succ p ih =>
    cases l with
    | nil => simp [listInsertAt]
    | cons x xs =>
      have h1 : listInsertAt (x :: xs) (p + 1) a = x :: listInsertAt xs p a := by
        simp [listInsertAt]
      have h2 : ∀ c : KeyListItemT K V, ∀ ys,
          listInsertAt (x :: ys) (p + 2) c = x :: listInsertAt ys (p + 1) c := by
        intro c ys
        simp [listInsertAt]
      rw [h1, h2, ih]
      simp

end ListKit

/-! ### Slot and iterator bridges (under unique node ids) -/

section SlotKit

open MultiValueMap

variable {K V : Type} [DecidableEq K]

theorem find?_id_of_mem {l : List (KeyListItemT K V)}
    (hn : (l.map (·.Id)).Nodup) {s : KeyListItemT K V} (hs : s ∈ l) :
    l.find? (fun x => x.Id == s.Id) = some s := by
  induction l with
  | nil => simp at hs
  | cons a rest ih =>
    simp only [List.map_cons, List.nodup_cons] at hn
    rcases List.mem_cons.1 hs with h | h
    · subst h
      exact List.find?_cons_of_pos _ (by simp)
    · have hne : a.Id ≠ s.Id := fun he => hn.1 (he ▸ List.mem_map.2 ⟨s, h, rfl⟩)
      rw [List.find?_cons_of_neg _ (by simp [hne])]
      exact ih hn.2 h

theorem findIdx_id_getElem {l : List (KeyListItemT K V)}
    (hn : (l.map (·.Id)).Nodup) {q : Nat} (hq : q < l.length) :
    l.findIdx (fun s => s.Id == l[q].Id) = q := by
  induction l generalizing q with
  | nil => simp at hq
  | cons a rest ih =>
    simp only [List.map_cons, List.nodup_cons] at hn
    cases q with
    | zero => simp [List.findIdx_cons]
    | succ q =>
      have hq' : q < rest.length := by simpa using hq
      have hmem : rest[q] ∈ rest := List.getElem_mem _
      have hne : a.Id ≠ rest[q].Id :=
        fun he => hn.1 (he ▸ List.mem_map.2 ⟨rest[q], hmem, rfl⟩)
      have hget : (a :: rest)[q + 1] = rest[q] := by simp
      have hb : (a.Id == rest[q].Id) = false := by simp [hne]
      rw [hget, List.findIdx_cons, hb]
      simp only [cond_false]
      rw [ih hn.2 hq']

theorem findIdx_id_eq_length {l : List (KeyListItemT K V)} {i : Nat}
    (h : ∀ s ∈ l, s.Id ≠ i) :
    l.findIdx (fun s => s.Id == i) = l.length :=
  List.findIdx_eq_length.2 (fun s hs => by simp [h s hs])

theorem slotById_of_mem {m : MultiValueMap K V}
    (hn : (m.KeyList.map (·.Id)).Nodup) {s : KeyListItemT K V}
    (hs : s ∈ m.KeyList) : slotById m (some s.Id) = some s :=
  find?_id_of_mem hn hs

theorem slotById_spec {m : MultiValueMap K V} {i : Nat} {s : KeyListItemT K V}
    (h : slotById m (some i) = some s) : s ∈ m.KeyList ∧ s.Id = i := by
  refine ⟨List.mem_of_find?_eq_some h, ?_⟩
  have := List.find?_some h
  simpa using this

theorem slotById_eq_none {m : MultiValueMap K V} {i : Nat}
    (h : ∀ s ∈ m.KeyList, s.Id ≠ i) : slotById m (some i) = none := by
  unfold slotById
  rw [List.find?_eq_none]
  intro s hs
  simp [h s hs]

theorem posOfIter_le_length (m : MultiValueMap K V) (it : Iter) :
    posOfIter m it ≤ m.KeyList.length := by
  cases it with
  | none => exact le_refl _
  | some i => exact List.findIdx_le_length _

theorem posOfIter_of_mem {m : MultiValueMap K V}
    (hn : (m.KeyList.map (·.Id)).Nodup) {s : KeyListItemT K V}
    (hs : s ∈ m.KeyList) :
    posOfIter m (some s.Id) < m.KeyList.length ∧
      m.KeyList[posOfIter m (some s.Id)]? = some s := by
  obtain ⟨q, hq, hget⟩ := List.mem_iff_getElem.1 hs
  have : posOfIter m (some s.Id) = q := by
    unfold posOfIter
    rw [← hget]
    exact findIdx_id_getElem hn hq
  rw [this, List.getElem?_eq_getElem hq, hget]
  exact ⟨hq, rfl⟩

theorem posOfIter_stale {m : MultiValueMap K V} {i : Nat}
    (h : ∀ s ∈ m.KeyList, s.Id ≠ i) :
    posOfIter m (some i) = m.KeyList.length :=
  findIdx_id_eq_length h

theorem skipTagForward_none (m : MultiValueMap K V) :
    skipTagForward m none = none := rfl

theorem skipTagForward_item {m : MultiValueMap K V}
    (hn : (m.KeyList.map (·.Id)).Nodup) {s : KeyListItemT K V}
    (hs : s ∈ m.KeyList) (ht : isTag s = false) :
    skipTagForward m (some s.Id) = some s.Id := by
  unfold skipTagForward
  rw [slotById_of_mem hn hs]
  simp [ht]

theorem skipTagForward_stale {m : MultiValueMap K V} {i : Nat}
    (h : ∀ s ∈ m.KeyList, s.Id ≠ i) :
    skipTagForward m (some i) = some i := by
  unfold skipTagForward
  rw [slotById_eq_none h]

theorem mem_eraseIdx_of_ne {l : List (KeyListItemT K V)} {q : Nat}
    (hq : q < l.length) {x : KeyListItemT K V}
    (hx : x ∈ l) (hne : x ≠ l[q]) : x ∈ l.eraseIdx q := by
  rw [List.eraseIdx_eq_take_drop_succ]
  have hdecomp : l = l.take q ++ l.drop q := (List.take_append_drop _ _).symm
  rw [List.drop_eq_getElem_cons hq] at hdecomp
  rw [hdecomp] at hx
  rcases List.mem_append.1 hx with h | h
  · exact List.mem_append.2 (Or.inl h)
  · rcases List.mem_cons.1 h with h | h
    · exact absurd h hne
    · exact List.mem_append.2 (Or.inr h)

theorem mem_of_mem_eraseIdx {l : List (KeyListItemT K V)} {q : Nat}
    {x : KeyListItemT K V} (hx : x ∈ l.eraseIdx q) : x ∈ l :=
  (List.eraseIdx_sublist l q).subset hx

end SlotKit

/-! ### Well-formedness: core preservation lemmas -/

section WFCore

open MultiValueMap

variable {K V : Type} [DecidableEq K]

/-- A value legal for a stored `TagIt` in state `m`: any live node it points
at is keyless (a tag), and it is below the allocation counter. -/
def TagTargetOk (m : MultiValueMap K V) (o : Option Nat) : Prop :=
  ∀ t, o = some t → t < m.NextId ∧ ∀ s2 ∈ m.KeyList, s2.Id = t → s2.Key = none

theorem tagTargetOk_none (m : MultiValueMap K V) : TagTargetOk m none := by
  intro t ht
  cases ht

theorem tagTargetOk_of_mem {m : MultiValueMap K V} (hw : WF m)
    {s : KeyListItemT K V} (hs : s ∈ m.KeyList) : TagTargetOk m s.TagIt := by
  obtain ⟨_, _, h3, h4, _, _, _⟩ := hw
  intro t ht
  exact ⟨h3 s hs t ht, fun s2 hs2 hid => h4 s hs s2 hs2 (hid ▸ ht)⟩

theorem mem_getElem? {l : List (KeyListItemT K V)} {q : Nat}
    {s : KeyListItemT K V} (h : l[q]? = some s) : s ∈ l := by
  obtain ⟨hq, hget⟩ := List.getElem?_eq_some.1 h
  exact hget ▸ List.getElem_mem _

theorem nodupIds_getElem_ne {l : List (KeyListItemT K V)}
    (hn : (l.map (·.Id)).Nodup) {i j : Nat} (hi : i < l.length)
    (hj : j < l.length) (hij : i ≠ j) : l[i].Id ≠ l[j].Id := by
  have hpw := List.pairwise_iff_getElem.1 hn
  rcases Nat.lt_or_ge i j with h | h
  · have := hpw i j (by simpa using hi) (by simpa using hj) h
    simpa using this
  · have hji : j < i := lt_of_le_of_ne h (Ne.symm hij)
    have := hpw j i (by simpa using hj) (by simpa using hi) hji
    simp only [List.getElem_map] at this
    exact fun he => this he.symm

theorem nodupIds_mem_inj {l : List (KeyListItemT K V)}
    (hn : (l.map (·.Id)).Nodup) {x y : KeyListItemT K V}
    (hx : x ∈ l) (hy : y ∈ l) (hid : x.Id = y.Id) : x = y := by
  obtain ⟨i, hi, hgx⟩ := List.mem_iff_getElem.1 hx
  obtain ⟨j, hj, hgy⟩ := List.mem_iff_getElem.1 hy
  by_cases hij : i = j
  · subst hij
    rw [← hgx, ← hgy]
  · exact absurd (by rw [hgx, hgy, hid]) (nodupIds_getElem_ne hn hi hj hij)

theorem nodupIds_eraseIdx_ne {l : List (KeyListItemT K V)}
    (hn : (l.map (·.Id)).Nodup) {q : Nat} (hq : q < l.length)
    {x : KeyListItemT K V} (hx : x ∈ l.eraseIdx q) : x ≠ l[q] := by
  rw [List.eraseIdx_eq_take_drop_succ] at hx
  rcases List.mem_append.1 hx with h | h
  · obtain ⟨i, hi, hget⟩ := List.mem_iff_getElem.1 h
    have hi' : i < q := by
      have := hi
      simp only [List.length_take] at this
      omega
    rw [List.getElem_take] at hget
    intro he
    have hii : i < l.length := by omega
    have heq : l[i].Id = l[q].Id := by rw [hget, he]
    exact nodupIds_getElem_ne hn hii hq (by omega) heq
  · obtain ⟨j, hj, hget⟩ := List.mem_iff_getElem.1 h
    have hj' : q + 1 + j < l.length := by
      have := hj
      simp only [List.length_drop] at this
      omega
    rw [List.getElem_drop] at hget
    intro he
    have heq : l[q + 1 + j].Id = l[q].Id := by rw [hget, he]
    exact nodupIds_getElem_ne hn hj' hq (by omega) heq

/-- Adding a fresh keyless node (a tag) anywhere preserves well-formedness;
its `TagIt` may be singular, point at itself, or be a legal old target. -/
theorem WF_addTagNode {m : MultiValueMap K V} (hw : WF m) (p : Nat)
    (a : KeyListItemT K V) (hid : a.Id = m.NextId) (hkey : a.Key = none)
    (htag : a.TagIt = none ∨ a.TagIt = some m.NextId ∨ TagTargetOk m a.TagIt) :
    WF { m with KeyList := listInsertAt m.KeyList p a, NextId := m.NextId + 1 } := by
  obtain ⟨h1, h2, h3, h4, h5, h6, h7⟩ := hw
  have hperm := listInsertAt_perm m.KeyList p a
  have hmem : ∀ {x : KeyListItemT K V},
      x ∈ listInsertAt m.KeyList p a ↔ x = a ∨ x ∈ m.KeyList := mem_listInsertAt
  refine ⟨?_, ?_, ?_, ?_, ?_, ?_, ?_⟩
  · rw [(hperm.map (·.Id)).nodup_iff]
    simp only [List.map_cons, List.nodup_cons]
    refine ⟨fun hmm => ?_, h1⟩
    obtain ⟨s, hs, hsid⟩ := List.mem_map.1 hmm
    exact absurd (hsid ▸ hid ▸ h2 s hs) (lt_irrefl _)
  · intro s hs
    rcases hmem.1 hs with h | h
    · subst h
      simp only [hid]
      exact Nat.lt_succ_self _
    · exact Nat.lt_succ_of_lt (h2 s h)
  · intro s hs t ht
    rcases hmem.1 hs with h | h
    · subst h
      rcases htag with h | h | h
      · rw [h] at ht; cases ht
      · rw [h] at ht
        injection ht with hh
        subst hh
        exact Nat.lt_succ_self _
      · exact Nat.lt_succ_of_lt (h t ht).1
    · exact Nat.lt_succ_of_lt (h3 s h t ht)
  · intro s hs s2 hs2 ht
    rcases hmem.1 hs2 with h2' | h2'
    · exact h2' ▸ hkey
    · rcases hmem.1 hs with h | h
      · subst h
        rcases htag with ha | ha | ha
        · rw [ha] at ht; cases ht
        · rw [ha] at ht
          injection ht with hh
          exact absurd (hh ▸ h2 s2 h2') (lt_irrefl _)
        · exact (ha s2.Id ht).2 s2 h2' rfl
      · exact h4 s h s2 h2' ht
  · exact h5
  · intro q hq
    obtain ⟨s, hs, hsp⟩ := h6 q hq
    exact ⟨s, hmem.2 (Or.inr hs), hsp⟩
  · intro s hs k hk
    rcases hmem.1 hs with h | h
    · rw [h, hkey] at hk; cases hk
    · exact h7 s h k hk

/-- Adding a fresh item node for an absent key, with its index entry,
preserves well-formedness. -/
theorem WF_addItemNode {m : MultiValueMap K V} (hw : WF m) (p : Nat) {k : K}
    (a : KeyListItemT K V) (hid : a.Id = m.NextId) (hkey : a.Key = some k)
    (hval : a.Value = none) (htag : TagTargetOk m a.TagIt)
    (habs : indexFind m.Index k = none) :
    WF { m with KeyList := listInsertAt m.KeyList p a,
                Index := indexInsert m.Index k a.Id, NextId := m.NextId + 1 } := by
  obtain ⟨h1, h2, h3, h4, h5, h6, h7⟩ := hw
  have hperm := listInsertAt_perm m.KeyList p a
  have hmem : ∀ {x : KeyListItemT K V},
      x ∈ listInsertAt m.KeyList p a ↔ x = a ∨ x ∈ m.KeyList := mem_listInsertAt
  have hins : indexInsert m.Index k a.Id = m.Index ++ [(k, a.Id)] :=
    indexInsert_of_absent habs
  have hknot : ∀ q ∈ m.Index, q.1 ≠ k := indexFind_eq_none_iff.1 habs
  refine ⟨?_, ?_, ?_, ?_, ?_, ?_, ?_⟩
  · rw [(hperm.map (·.Id)).nodup_iff]
    simp only [List.map_cons, List.nodup_cons]
    refine ⟨fun hmm => ?_, h1⟩
    obtain ⟨s, hs, hsid⟩ := List.mem_map.1 hmm
    exact absurd (hsid ▸ hid ▸ h2 s hs) (lt_irrefl _)
  · intro s hs
    rcases hmem.1 hs with h | h
    · subst h
      simp only [hid]
      exact Nat.lt_succ_self _
    · exact Nat.lt_succ_of_lt (h2 s h)
  · intro s hs t ht
    rcases hmem.1 hs with h | h
    · exact Nat.lt_succ_of_lt ((htag t (h ▸ ht)).1)
    · exact Nat.lt_succ_of_lt (h3 s h t ht)
  · intro s hs s2 hs2 ht
    rcases hmem.1 hs2 with h2' | h2'
    · rcases hmem.1 hs with h | h
      · have := (htag s2.Id (h ▸ ht)).1
        rw [h2', hid] at this
        exact absurd this (lt_irrefl _)
      · have := h3 s h s2.Id ht
        rw [h2', hid] at this
        exact absurd this (lt_irrefl _)
    · rcases hmem.1 hs with h | h
      · exact (htag s2.Id (h ▸ ht)).2 s2 h2' rfl
      · exact h4 s h s2 h2' ht
  · rw [hins]
    simp only [List.map_append, List.map_cons, List.map_nil]
    rw [List.nodup_append]
    refine ⟨h5, List.nodup_singleton _, ?_⟩
    intro x hx hx2
    simp only [List.mem_singleton] at hx2
    obtain ⟨q, hq, hqx⟩ := List.mem_map.1 hx
    exact hknot q hq (hqx.trans hx2)
  · intro q hq
    rw [hins] at hq
    rcases List.mem_append.1 hq with h | h
    · obtain ⟨s, hs, hsp⟩ := h6 q h
      exact ⟨s, hmem.2 (Or.inr hs), hsp⟩
    · simp only [List.mem_singleton] at h
      exact ⟨a, hmem.2 (Or.inl rfl), by simp [h, hkey, hval]⟩
  · intro s hs k' hk'
    rw [hins]
    rcases hmem.1 hs with h | h
    · subst h
      rw [hkey] at hk'
      cases hk'
      exact List.mem_append.2 (Or.inr (by simp))
    · exact List.mem_append.2 (Or.inl (h7 s h k' hk'))

/-- Removing a keyless node preserves well-formedness (index untouched). -/
theorem WF_eraseKeylessNode {m : MultiValueMap K V} (hw : WF m) {q : Nat}
    {s : KeyListItemT K V} (hq : m.KeyList[q]? = some s) (hkey : s.Key = none) :
    WF { m with KeyList := m.KeyList.eraseIdx q } := by
  obtain ⟨h1, h2, h3, h4, h5, h6, h7⟩ := hw
  obtain ⟨hqlt, hqget⟩ := List.getElem?_eq_some.1 hq
  have hsub : ∀ {x : KeyListItemT K V}, x ∈ m.KeyList.eraseIdx q → x ∈ m.KeyList :=
    fun hx => mem_of_mem_eraseIdx hx
  refine ⟨?_, ?_, ?_, ?_, h5, ?_, ?_⟩
  · exact (((List.eraseIdx_sublist m.KeyList q).map (·.Id))).nodup h1
  · exact fun x hx => h2 x (hsub hx)
  · exact fun x hx t ht => h3 x (hsub hx) t ht
  · exact fun x hx x2 hx2 ht => h4 x (hsub hx) x2 (hsub hx2) ht
  · intro p hp
    obtain ⟨t, htm, htp⟩ := h6 p hp
    refine ⟨t, ?_, htp⟩
    refine mem_eraseIdx_of_ne hqlt htm ?_
    intro he
    rw [he, hqget, hkey] at htp
    cases htp.2.1
  · exact fun x hx k hk => h7 x (hsub hx) k hk

/-- Removing an item node together with its index entry preserves
well-formedness. -/
theorem WF_eraseItemNode {m : MultiValueMap K V} (hw : WF m) {q : Nat} {k : K}
    {s : KeyListItemT K V} (hq : m.KeyList[q]? = some s) (hkey : s.Key = some k) :
    WF { m with KeyList := m.KeyList.eraseIdx q,
                Index := indexErase m.Index k } := by
  obtain ⟨h1, h2, h3, h4, h5, h6, h7⟩ := hw
  obtain ⟨hqlt, hqget⟩ := List.getElem?_eq_some.1 hq
  have hsub : ∀ {x : KeyListItemT K V}, x ∈ m.KeyList.eraseIdx q → x ∈ m.KeyList :=
    fun hx => mem_of_mem_eraseIdx hx
  have hkerased : ∀ p ∈ indexErase m.Index k, p.1 ≠ k :=
    indexFind_eq_none_iff.1 (indexFind_indexErase_self h5)
  refine ⟨?_, ?_, ?_, ?_, ?_, ?_, ?_⟩
  · exact (((List.eraseIdx_sublist m.KeyList q).map (·.Id))).nodup h1
  · exact fun x hx => h2 x (hsub hx)
  · exact fun x hx t ht => h3 x (hsub hx) t ht
  · exact fun x hx x2 hx2 ht => h4 x (hsub hx) x2 (hsub hx2) ht
  · exact (indexErase_map_fst_sublist m.Index k).nodup h5
  · intro p hp
    obtain ⟨t, htm, htp⟩ := h6 p (indexErase_subset hp)
    refine ⟨t, ?_, htp⟩
    refine mem_eraseIdx_of_ne hqlt htm ?_
    intro he
    rw [he, hqget, hkey] at htp
    have : p.1 = k := by
      have := htp.2.1
      injection this with h
      exact h.symm
    exact hkerased p hp this
  · intro x hx k' hk'
    have hxo := hsub hx
    have hentry := h7 x hxo k' hk'
    refine mem_indexErase_of_ne ?_ hentry
    intro he
    simp only at he
    subst he
    have hxs : x ≠ s := hqget ▸ nodupIds_eraseIdx_ne h1 hqlt hx
    have hsk : (k', s.Id) ∈ m.Index := h7 s (mem_getElem? hq) k' hkey
    have hxsid : x.Id = s.Id := by
      have hfx := indexFind_of_mem h5 hentry
      have hfs := indexFind_of_mem h5 hsk
      rw [hfx] at hfs
      injection hfs
    exact hxs (nodupIds_mem_inj h1 hxo (mem_getElem? hq) hxsid)

end WFCore

/-! ### Truncating division bound -/

theorem tdiv_two_between {a b : Int} (h : a ≤ b) :
    a ≤ (a + b).tdiv 2 ∧ (a + b).tdiv 2 ≤ b := by
  rcases le_or_lt 0 (a + b) with hx | hx
  · rw [Int.tdiv_eq_ediv hx (by norm_num)]
    constructor
    · rw [Int.le_ediv_iff_mul_le (by norm_num)]
      omega
    · have h2 : a + b ≤ 2 * b := by omega
      have h3 := @Int.ediv_le_ediv (a + b) (2 * b) 2 (by norm_num) h2
      rwa [Int.mul_ediv_cancel_left _ (by norm_num)] at h3
  · have hneg := Int.neg_tdiv (-(a + b)) 2
    rw [neg_neg] at hneg
    rw [hneg, Int.tdiv_eq_ediv (by omega) (by norm_num)]
    constructor
    · have h2 : -(a + b) ≤ 2 * (-a) := by omega
      have h3 := @Int.ediv_le_ediv (-(a + b)) (2 * (-a)) 2 (by norm_num) h2
      rw [Int.mul_ediv_cancel_left _ (by norm_num)] at h3
      omega
    · have h3 := (@Int.le_ediv_iff_mul_le (-b) (-(a + b)) 2 (by norm_num)).2 (by omega)
      omega

/-! ### Order-index sortedness: core preservation lemmas -/

section SortedCore

open MultiValueMap

variable {K V : Type} [DecidableEq K]

theorem sorted_getElem_le {l : List (KeyListItemT K V)}
    (hs : (l.map (·.OrderIdx)).Pairwise (· ≤ ·)) {i j : Nat}
    (hi : i < l.length) (hj : j < l.length) (hij : i ≤ j) :
    l[i].OrderIdx ≤ l[j].OrderIdx := by
  rcases Nat.lt_or_ge i j with h | h
  · have := List.pairwise_iff_getElem.1 hs i j (by simpa using hi)
      (by simpa using hj) h
    simpa using this
  · have : i = j := le_antisymm hij h
    subst this
    exact le_refl _

theorem orderIdxForNewElem_lo {m : MultiValueMap K V}
    (hs : IdxSorted m) {p : Nat} (hp : p ≤ m.KeyList.length) (hp0 : p ≠ 0)
    (hsp : 0 ≤ m.OrderIdxSpacing) (hlt : p - 1 < m.KeyList.length) :
    m.KeyList[p - 1].OrderIdx ≤ orderIdxForNewElem m p := by
  unfold orderIdxForNewElem
  rw [if_neg hp0]
  by_cases hpl : p = m.KeyList.length
  · rw [if_pos hpl, List.getElem?_eq_getElem hlt]
    show m.KeyList[p - 1].OrderIdx ≤ m.KeyList[p - 1].OrderIdx + m.OrderIdxSpacing
    omega
  · rw [if_neg hpl]
    have hplt : p < m.KeyList.length := lt_of_le_of_ne hp hpl
    rw [List.getElem?_eq_getElem hlt, List.getElem?_eq_getElem hplt]
    exact (tdiv_two_between (sorted_getElem_le hs hlt hplt (by omega))).1

theorem orderIdxForNewElem_hi {m : MultiValueMap K V}
    (hs : IdxSorted m) {p : Nat} (hsp : 0 ≤ m.OrderIdxSpacing)
    (hplt : p < m.KeyList.length) :
    orderIdxForNewElem m p ≤ m.KeyList[p].OrderIdx := by
  unfold orderIdxForNewElem
  by_cases hp0 : p = 0
  · subst hp0
    rw [if_pos rfl, List.getElem?_eq_getElem hplt]
    show m.KeyList[0].OrderIdx - m.OrderIdxSpacing ≤ m.KeyList[0].OrderIdx
    omega
  · rw [if_neg hp0, if_neg (by omega)]
    have hlt : p - 1 < m.KeyList.length := by omega
    rw [List.getElem?_eq_getElem hlt, List.getElem?_eq_getElem hplt]
    exact (tdiv_two_between (sorted_getElem_le hs hlt hplt (by omega))).2

theorem sorted_insertAt {m : MultiValueMap K V} (hs : IdxSorted m)
    (hsp : 0 ≤ m.OrderIdxSpacing) {p : Nat} (hp : p ≤ m.KeyList.length)
    {a : KeyListItemT K V} (ha : a.OrderIdx = orderIdxForNewElem m p) :
    ((listInsertAt m.KeyList p a).map (·.OrderIdx)).Pairwise (· ≤ ·) := by
  have hB1 : ∀ x ∈ m.KeyList.take p, x.OrderIdx ≤ a.OrderIdx := by
    intro x hx
    obtain ⟨i, hi, hget⟩ := List.mem_iff_getElem.1 hx
    have hi' : i < p := by
      have := hi
      simp only [List.length_take] at this
      omega
    have hii : i < m.KeyList.length := by
      have := hi
      simp only [List.length_take] at this
      omega
    rw [List.getElem_take] at hget
    have hp0 : p ≠ 0 := by omega
    have hlt : p - 1 < m.KeyList.length := by omega
    calc x.OrderIdx = m.KeyList[i].OrderIdx := by rw [hget]
      _ ≤ m.KeyList[p - 1].OrderIdx := sorted_getElem_le hs hii hlt (by omega)
      _ ≤ a.OrderIdx := ha ▸ orderIdxForNewElem_lo hs hp hp0 hsp hlt
  have hB2 : ∀ y ∈ m.KeyList.drop p, a.OrderIdx ≤ y.OrderIdx := by
    intro y hy
    obtain ⟨j, hj, hget⟩ := List.mem_iff_getElem.1 hy
    have hj' : p + j < m.KeyList.length := by
      have := hj
      simp only [List.length_drop] at this
      omega
    have hplt : p < m.KeyList.length := by omega
    rw [List.getElem_drop] at hget
    calc a.OrderIdx ≤ m.KeyList[p].OrderIdx := ha ▸ orderIdxForNewElem_hi hs hsp hplt
      _ ≤ m.KeyList[p + j].OrderIdx := sorted_getElem_le hs hplt hj' (by omega)
      _ = y.OrderIdx := by rw [hget]
  unfold listInsertAt
  rw [List.map_append, List.map_cons, List.pairwise_append]
  refine ⟨?_, ?_, ?_⟩
  · rw [List.map_take]
    exact hs.sublist (List.take_sublist _ _)
  · rw [List.pairwise_cons]
    constructor
    · intro b hb
      rw [List.map_drop] at hb
      obtain ⟨y, hy, hyb⟩ := List.mem_map.1 (by
        rw [← List.map_drop] at hb
        exact hb)
      exact hyb ▸ hB2 y hy
    · rw [List.map_drop]
      exact hs.sublist (List.drop_sublist _ _)
  · intro x hx y hy
    obtain ⟨sx, hsx, hsxe⟩ := List.mem_map.1 hx
    rcases List.mem_cons.1 hy with h | h
    · subst h
      exact hsxe ▸ hB1 sx hsx
    · obtain ⟨sy, hsy, hsye⟩ := List.mem_map.1 h
      calc x = sx.OrderIdx := hsxe.symm
        _ ≤ a.OrderIdx := hB1 sx hsx
        _ ≤ sy.OrderIdx := hB2 sy hsy
        _ = y := hsye

theorem sorted_eraseIdx {l : List (KeyListItemT K V)}
    (hs : (l.map (·.OrderIdx)).Pairwise (· ≤ ·)) (q : Nat) :
    ((l.eraseIdx q).map (·.OrderIdx)).Pairwise (· ≤ ·) :=
  hs.sublist ((List.eraseIdx_sublist l q).map _)

theorem insertionPointerForNewList_le (m : MultiValueMap K V) (P : Iter) :
    insertionPointerForNewList m P ≤ m.KeyList.length := by
  unfold insertionPointerForNewList
  dsimp only
  have hp := posOfIter_le_length m P
  split
  · exact hp
  · split
    · split
      · omega
      · have := @List.findIdx_le_length _ (fun s => isTag s)
          (m.KeyList.drop (posOfIter m P))
        simp only [List.length_drop] at this
        omega
    · exact hp

theorem leftInsertionPointer_le (m : MultiValueMap K V) (P : Iter) :
    (leftInsertionPointer m P).1 ≤ m.KeyList.length := by
  unfold leftInsertionPointer
  dsimp only
  have hp := posOfIter_le_length m P
  split
  · omega
  · split
    · split
      · split <;> omega
      · omega
    · omega

theorem rightInsertionPointer_le (m : MultiValueMap K V) (P : Iter) :
    (rightInsertionPointer m P).1 ≤ m.KeyList.length := by
  unfold rightInsertionPointer
  dsimp only
  have hp := posOfIter_le_length m (skipTagForward m P)
  have hp0 := posOfIter_le_length m P
  split
  · exact hp0
  · split <;> exact hp

end SortedCore

/-! ### Guard lemmas and insertion-pointer targets -/

section Guards

open MultiValueMap

variable {K V : Type} [DecidableEq K]

theorem isTag_false_of_value_none {s : KeyListItemT K V} (h : s.Value = none) :
    isTag s = false := by
  simp [isTag, h]

theorem find_present {m : MultiValueMap K V} (hw : WF m) {k : K} {nid : Nat}
    (hidx : indexFind m.Index k = some nid) :
    find m k = some nid ∧ skipTagForward m (find m k) = some nid ∧
      ∃ s ∈ m.KeyList, s.Id = nid ∧ s.Key = some k ∧ s.Value = none := by
  obtain ⟨h1, h2, h3, h4, h5, h6, h7⟩ := hw
  obtain ⟨s, hs, hsid, hskey, hsval⟩ := h6 (k, nid) (indexFind_mem hidx)
  dsimp only at hsid hskey
  have hfind : find m k = some nid := by
    unfold find
    rw [hidx]
  have hskip : skipTagForward m (find m k) = some nid := by
    rw [hfind, ← hsid]
    exact skipTagForward_item h1 hs (isTag_false_of_value_none hsval)
  exact ⟨hfind, hskip, s, hs, hsid, hskey, hsval⟩

theorem skip_find_eq_none_iff {m : MultiValueMap K V} (hw : WF m) {k : K} :
    skipTagForward m (find m k) = none ↔ indexFind m.Index k = none := by
  constructor
  · intro h
    cases hidx : indexFind m.Index k with
    | none => rfl
    | some nid =>
      rw [(find_present hw hidx).2.1] at h
      cases h
  · intro h
    unfold find
    rw [h]
    rfl

theorem tagTargetOk_rightIP {m : MultiValueMap K V} (hw : WF m) (P : Iter) :
    TagTargetOk m (rightInsertionPointer m P).2 := by
  unfold rightInsertionPointer
  dsimp only
  split
  · exact tagTargetOk_none m
  · split
    · rename_i s hs
      exact tagTargetOk_of_mem hw (mem_getElem? hs)
    · exact tagTargetOk_none m

theorem posOfIter_zero_head {m : MultiValueMap K V}
    (h0 : 0 < m.KeyList.length) {it : Iter} (hit : posOfIter m it = 0) :
    it = none ∨ ∃ hd, m.KeyList[0]? = some hd ∧ it = some hd.Id := by
  cases it with
  | none =>
    left
    rfl
  | some i =>
    right
    unfold posOfIter at hit
    dsimp only at hit
    cases hl : m.KeyList with
    | nil => rw [hl] at h0; simp at h0
    | cons hd tl =>
      rw [hl, List.findIdx_cons] at hit
      by_cases hb : (hd.Id == i) = true
      · have hbi : hd.Id = i := by simpa using hb
        exact ⟨hd, by simp, by rw [hbi]⟩
      · rw [Bool.not_eq_true] at hb
        rw [hb] at hit
        simp at hit

theorem tagTargetOk_leftIP {m : MultiValueMap K V} (hw : WF m) {P : Iter}
    (hguard : skipTagForward m P ≠ skipTagForward m (beginIter m)) :
    TagTargetOk m (leftInsertionPointer m (skipTagForward m P)).2 := by
  have h1 := hw.1
  unfold leftInsertionPointer
  dsimp only
  split
  · rename_i hp0
    cases hl : m.KeyList with
    | nil =>
      have : iterAtPos m 0 = none := by
        unfold iterAtPos
        rw [hl]
        simp
      rw [this]
      exact tagTargetOk_none m
    | cons hd tl =>
      exfalso
      have h0 : 0 < m.KeyList.length := by rw [hl]; simp
      have hget0 : m.KeyList[0]? = some hd := by rw [hl]; simp
      have hhd : m.KeyList[0] = hd := by
        obtain ⟨hh, hg⟩ := List.getElem?_eq_some.1 hget0
        exact hg
      have hhdmem : hd ∈ m.KeyList := by rw [hl]; exact List.mem_cons_self _ _
      rcases posOfIter_zero_head h0 hp0 with h | ⟨hd2, hget2a, h⟩
      · -- the skipped iterator is end(): impossible on a nonempty list
        rw [h] at hp0
        unfold posOfIter at hp0
        rw [hl] at hp0
        simp at hp0
      · -- the skipped iterator sits on the head node
        rw [hget0] at hget2a
        injection hget2a with hget2a
        subst hget2a
        by_cases htag : isTag hd = true
        · -- head is a tag: skipTagForward output cannot sit on a live tag
          cases hP : P with
          | none =>
            rw [hP, skipTagForward_none] at h
            cases h
          | some j =>
            rw [hP] at h
            unfold skipTagForward at h
            split at h
            · rename_i s hsl
              split at h
              · -- skipped off a tag: lands at position (posOfIter + 1) ≠ 0
                rename_i hst
                unfold iterAtPos at h
                cases hg : m.KeyList[posOfIter m (some j) + 1]? with
                | none => rw [hg] at h; cases h
                | some x =>
                  rw [hg] at h
                  simp only [Option.map_some', Option.some.injEq] at h
                  obtain ⟨hlt2, hget2⟩ := List.getElem?_eq_some.1 hg
                  have heq : m.KeyList[posOfIter m (some j) + 1].Id =
                      m.KeyList[0].Id := by
                    rw [hget2, hhd, h]
                  exact nodupIds_getElem_ne h1 hlt2 h0 (by omega) heq
              · -- on an item: stays, so the head would be that item
                rename_i hst
                simp only [Option.some.injEq] at h
                subst h
                rw [slotById_of_mem h1 hhdmem] at hsl
                injection hsl with he
                exact hst (he ▸ htag)
            · -- dangling iterator: stays, so the head would be dangling
              rename_i hsl
              simp only [Option.some.injEq] at h
              subst h
              rw [slotById_of_mem h1 hhdmem] at hsl
              cases hsl
        · -- head is an item: skipping begin() stays on it, violating the guard
          apply hguard
          rw [h]
          have hbegin : beginIter m = some hd.Id := by
            unfold beginIter iterAtPos
            rw [hl]
            simp
          rw [hbegin]
          exact (skipTagForward_item h1 hhdmem (by simpa using htag)).symm
  · split
    · rename_i prev hprev
      split
      · split
        · rename_i prev2 hprev2
          exact tagTargetOk_of_mem hw (mem_getElem? hprev2)
        · exact tagTargetOk_none m
      · exact tagTargetOk_of_mem hw (mem_getElem? hprev)
    · exact tagTargetOk_none m

end Guards

/-! ### Invariant preservation per public operation -/

section OpInv

open MultiValueMap

variable {K V : Type} [DecidableEq K]

theorem Inv_insert {m : MultiValueMap K V} (hi : Inv m) (P : Iter) (k : K)
    (v : V) : Inv (MultiValueMap.insert m P k v).1 := by
  obtain ⟨hw, hs, hsp⟩ := hi
  unfold MultiValueMap.insert
  dsimp only
  split
  · exact ⟨hw, hs, hsp⟩
  · rename_i hg
    have habs : indexFind m.Index k = none :=
      (skip_find_eq_none_iff hw).1 (not_not.1 hg)
    let FP := insertionPointerForNewList m P
    let tg : KeyListItemT K V :=
      { Value := some v, Key := none, TagIt := some m.NextId,
        OrderIdx := orderIdxForNewElem m FP, Id := m.NextId }
    let m1 : MultiValueMap K V :=
      { m with KeyList := listInsertAt m.KeyList FP tg, NextId := m.NextId + 1 }
    let itm : KeyListItemT K V :=
      { Value := none, Key := some k, TagIt := some m.NextId,
        OrderIdx := orderIdxForNewElem m1 (FP + 1), Id := m1.NextId }
    have hFPle : FP ≤ m.KeyList.length := insertionPointerForNewList_le m P
    have hw1 : WF m1 := WF_addTagNode hw FP tg rfl rfl (Or.inr (Or.inl rfl))
    have hs1 : IdxSorted m1 := sorted_insertAt hs hsp hFPle rfl
    have htg1 : TagTargetOk m1 (some m.NextId) := by
      intro t ht
      injection ht with ht
      subst ht
      refine ⟨Nat.lt_succ_self _, ?_⟩
      intro s2 hs2 hid
      rcases mem_listInsertAt.1 hs2 with h | h
      · rw [h]
      · exact absurd (hw.2.1 s2 h) (by rw [hid]; exact lt_irrefl _)
    have hlen1 : FP + 1 ≤ m1.KeyList.length := by
      show FP + 1 ≤ (listInsertAt m.KeyList FP tg).length
      rw [listInsertAt_length]
      omega
    have hw2 : WF
        { m1 with
          KeyList := listInsertAt m1.KeyList (FP + 1) itm,
          Index := indexInsert m1.Index k itm.Id,
          NextId := m1.NextId + 1 } :=
      WF_addItemNode hw1 (FP + 1) itm rfl rfl rfl htg1 habs
    have hs2 : IdxSorted
        { m1 with
          KeyList := listInsertAt m1.KeyList (FP + 1) itm,
          Index := indexInsert m1.Index k itm.Id,
          NextId := m1.NextId + 1 } :=
      sorted_insertAt hs1 hsp hlen1 rfl
    exact ⟨hw2, hs2, hsp⟩

theorem Inv_insertRight {m : MultiValueMap K V} (hi : Inv m) (P : Iter)
    (k : K) : Inv (insertRight m P k).1 := by
  obtain ⟨hw, hs, hsp⟩ := hi
  unfold insertRight
  dsimp only
  split
  · exact ⟨hw, hs, hsp⟩
  · split
    · exact ⟨hw, hs, hsp⟩
    · rename_i hne hpres
      have habs : indexFind m.Index k = none := by
        cases hidx : indexFind m.Index k with
        | none => rfl
        | some nid => rw [hidx] at hpres; simp at hpres
      let ip := rightInsertionPointer m (skipTagForward m P)
      let itm : KeyListItemT K V :=
        { Value := none, Key := some k, TagIt := ip.2,
          OrderIdx := orderIdxForNewElem m ip.1, Id := m.NextId }
      have htt : TagTargetOk m ip.2 := tagTargetOk_rightIP hw _
      have hle : ip.1 ≤ m.KeyList.length := rightInsertionPointer_le m _
      have hw1 : WF
          { m with
            KeyList := listInsertAt m.KeyList ip.1 itm,
            Index := indexInsert m.Index k itm.Id,
            NextId := m.NextId + 1 } :=
        WF_addItemNode hw ip.1 itm rfl rfl rfl htt habs
      have hs1 : IdxSorted
          { m with
            KeyList := listInsertAt m.KeyList ip.1 itm,
            Index := indexInsert m.Index k itm.Id,
            NextId := m.NextId + 1 } :=
        sorted_insertAt hs hsp hle rfl
      exact ⟨hw1, hs1, hsp⟩

theorem Inv_insertLeft {m : MultiValueMap K V} (hi : Inv m) (P : Iter)
    (k : K) : Inv (insertLeft m P k).1 := by
  obtain ⟨hw, hs, hsp⟩ := hi
  unfold insertLeft
  dsimp only
  split
  · exact ⟨hw, hs, hsp⟩
  · split
    · exact ⟨hw, hs, hsp⟩
    · rename_i hne hpres
      have habs : indexFind m.Index k = none := by
        cases hidx : indexFind m.Index k with
        | none => rfl
        | some nid => rw [hidx] at hpres; simp at hpres
      let ip := leftInsertionPointer m (skipTagForward m P)
      let itm : KeyListItemT K V :=
        { Value := none, Key := some k, TagIt := ip.2,
          OrderIdx := orderIdxForNewElem m ip.1, Id := m.NextId }
      have htt : TagTargetOk m ip.2 := tagTargetOk_leftIP hw hne
      have hle : ip.1 ≤ m.KeyList.length := leftInsertionPointer_le m _
      have hw1 : WF
          { m with
            KeyList := listInsertAt m.KeyList ip.1 itm,
            Index := indexInsert m.Index k itm.Id,
            NextId := m.NextId + 1 } :=
        WF_addItemNode hw ip.1 itm rfl rfl rfl htt habs
      have hs1 : IdxSorted
          { m with
            KeyList := listInsertAt m.KeyList ip.1 itm,
            Index := indexInsert m.Index k itm.Id,
            NextId := m.NextId + 1 } :=
        sorted_insertAt hs hsp hle rfl
      exact ⟨hw1, hs1, hsp⟩

theorem getElem?_append_self (pre : List (KeyListItemT K V))
    (s : KeyListItemT K V) (rest : List (KeyListItemT K V)) :
    (pre ++ s :: rest)[pre.length]? = some s := by
  rw [List.getElem?_append_right (le_refl _)]
  simp

theorem eraseIdx_append_self (pre : List (KeyListItemT K V))
    (s : KeyListItemT K V) (rest : List (KeyListItemT K V)) :
    (pre ++ s :: rest).eraseIdx pre.length = pre ++ rest := by
  induction pre with
  | nil => simp [List.eraseIdx]
  | cons x xs ih => simp [List.eraseIdx, ih]

theorem Inv_eraseIt {m : MultiValueMap K V} (hi : Inv m) (I : Iter) :
    Inv (eraseIt m I).1 := by
  obtain ⟨hw, hs, hsp⟩ := hi
  unfold eraseIt
  dsimp only
  split
  · exact ⟨hw, hs, hsp⟩
  · rename_i itm hitm
    have hitmmem : itm ∈ m.KeyList := mem_getElem? hitm
    cases hkey : itm.Key with
    | some k =>
      have hwa : WF { m with
          KeyList := m.KeyList.eraseIdx (posOfIter m (skipTagForward m I)),
          Index := indexErase m.Index k } := WF_eraseItemNode hw hitm hkey
      dsimp only
      split
      · rename_i hemp
        cases hn : (m.KeyList.eraseIdx
            (posOfIter m (skipTagForward m I)))[posOfIter m (skipTagForward m I)]? with
        | none => rw [hn] at hemp; cases hemp
        | some nxt =>
          cases hp : (m.KeyList.eraseIdx
              (posOfIter m (skipTagForward m I)))[posOfIter m (skipTagForward m I) - 1]? with
          | none => rw [hn, hp] at hemp; cases hemp
          | some prv =>
            rw [hn, hp] at hemp
            have htagit : itm.TagIt = some prv.Id := by
              rw [Bool.and_eq_true] at hemp
              have h2 := hemp.2
              rw [beq_iff_eq] at h2
              exact h2.symm
            obtain ⟨hq1lt, hpget⟩ := List.getElem?_eq_some.1 hp
            have hprvmem : prv ∈ m.KeyList :=
              mem_of_mem_eraseIdx (mem_getElem? hp)
            have hprvkey : prv.Key = none :=
              hw.2.2.2.1 itm hitmmem prv hprvmem htagit
            have htpos : (m.KeyList.eraseIdx
                (posOfIter m (skipTagForward m I))).findIdx
                  (fun s => some s.Id == itm.TagIt) =
                posOfIter m (skipTagForward m I) - 1 := by
              rw [htagit]
              have h := findIdx_id_getElem hwa.1 hq1lt
              rw [hpget] at h
              exact h
            rw [htpos]
            refine ⟨WF_eraseKeylessNode hwa hp hprvkey, ?_, hsp⟩
            exact sorted_eraseIdx (sorted_eraseIdx hs _) _
      · exact ⟨hwa, sorted_eraseIdx hs _, hsp⟩
    | none =>
      have hwa : WF { m with
          KeyList := m.KeyList.eraseIdx (posOfIter m (skipTagForward m I)) } :=
        WF_eraseKeylessNode hw hitm hkey
      dsimp only
      split
      · rename_i hemp
        cases hn : (m.KeyList.eraseIdx
            (posOfIter m (skipTagForward m I)))[posOfIter m (skipTagForward m I)]? with
        | none => rw [hn] at hemp; cases hemp
        | some nxt =>
          cases hp : (m.KeyList.eraseIdx
              (posOfIter m (skipTagForward m I)))[posOfIter m (skipTagForward m I) - 1]? with
          | none => rw [hn, hp] at hemp; cases hemp
          | some prv =>
            rw [hn, hp] at hemp
            have htagit : itm.TagIt = some prv.Id := by
              rw [Bool.and_eq_true] at hemp
              have h2 := hemp.2
              rw [beq_iff_eq] at h2
              exact h2.symm
            obtain ⟨hq1lt, hpget⟩ := List.getElem?_eq_some.1 hp
            have hprvmem : prv ∈ m.KeyList :=
              mem_of_mem_eraseIdx (mem_getElem? hp)
            have hprvkey : prv.Key = none :=
              hw.2.2.2.1 itm hitmmem prv hprvmem htagit
            have htpos : (m.KeyList.eraseIdx
                (posOfIter m (skipTagForward m I))).findIdx
                  (fun s => some s.Id == itm.TagIt) =
                posOfIter m (skipTagForward m I) - 1 := by
              rw [htagit]
              have h := findIdx_id_getElem hwa.1 hq1lt
              rw [hpget] at h
              exact h
            rw [htpos]
            refine ⟨WF_eraseKeylessNode hwa hp hprvkey, ?_, hsp⟩
            exact sorted_eraseIdx (sorted_eraseIdx hs _) _
      · exact ⟨hwa, sorted_eraseIdx hs _, hsp⟩

theorem WF_eraseAllLoop (suf : List (KeyListItemT K V)) :
    ∀ (pre : List (KeyListItemT K V)) (idx : List (K × Nat)) (sp : Int)
      (ni : Nat),
    WF ⟨pre ++ suf, idx, sp, ni⟩ →
    ((pre ++ suf).map (·.OrderIdx)).Pairwise (· ≤ ·) →
    WF ⟨pre ++ (eraseAllLoop idx suf).2, (eraseAllLoop idx suf).1, sp, ni⟩ ∧
      ((pre ++ (eraseAllLoop idx suf).2).map (·.OrderIdx)).Pairwise (· ≤ ·) := by
  induction suf with
  | nil =>
    intro pre idx sp ni hw hs
    exact ⟨hw, hs⟩
  | cons s rest ih =>
    intro pre idx sp ni hw hs
    unfold eraseAllLoop
    split
    · exact ⟨hw, hs⟩
    · rename_i htag
      have hq : (pre ++ s :: rest)[pre.length]? = some s :=
        getElem?_append_self pre s rest
      have herase : (pre ++ s :: rest).eraseIdx pre.length = pre ++ rest :=
        eraseIdx_append_self pre s rest
      have hsorted : ((pre ++ rest).map (·.OrderIdx)).Pairwise (· ≤ ·) := by
        refine hs.sublist (List.Sublist.map _ ?_)
        exact (List.Sublist.refl pre).append (List.sublist_cons_self s rest)
      cases hkey : s.Key with
      | some k =>
        have hw' := WF_eraseItemNode hw hq hkey
        rw [herase] at hw'
        exact ih pre (indexErase idx k) sp ni hw' hsorted
      | none =>
        have hw' := WF_eraseKeylessNode hw hq hkey
        rw [herase] at hw'
        exact ih pre idx sp ni hw' hsorted

theorem Inv_eraseAllIt {m : MultiValueMap K V} (hi : Inv m) (I : Iter) :
    Inv (eraseAllIt m I).1 := by
  obtain ⟨hw, hs, hsp⟩ := hi
  unfold eraseAllIt
  dsimp only
  split
  · exact ⟨hw, hs, hsp⟩
  · rename_i tid htid
    obtain ⟨s0, hs0, hs0t⟩ : ∃ s0, slotById m I = some s0 ∧ s0.TagIt = some tid := by
      cases hsl : slotById m I with
      | none => rw [hsl] at htid; cases htid
      | some s0 =>
        rw [hsl] at htid
        exact ⟨s0, rfl, htid⟩
    have hs0mem : s0 ∈ m.KeyList := by
      cases I with
      | none => simp [slotById] at hs0
      | some i => exact (slotById_spec hs0).1
    cases hgt : m.KeyList[m.KeyList.findIdx (fun s => s.Id == tid)]? with
    | none =>
      -- the TagIt target is dead: findIdx fell off the end, everything is a no-op
      have hlen : m.KeyList.findIdx (fun s => s.Id == tid) = m.KeyList.length := by
        have hle := @List.findIdx_le_length _ (fun s => s.Id == tid)
          m.KeyList
        rcases lt_or_eq_of_le hle with h | h
        · rw [List.getElem?_eq_getElem h] at hgt
          cases hgt
        · exact h
      rw [hlen, List.eraseIdx_eq_self.2 (le_refl _),
        List.drop_eq_nil_of_le (le_refl _)]
      unfold eraseAllLoop
      rw [List.take_length]
      simpa using ⟨hw, hs, hsp⟩
    | some prv =>
      obtain ⟨hlt, hget⟩ := List.getElem?_eq_some.1 hgt
      have hprvid : prv.Id = tid := by
        have := @List.findIdx_getElem _ (fun s => s.Id == tid) m.KeyList hlt
        rw [hget] at this
        simpa using this
      have hprvmem : prv ∈ m.KeyList := mem_getElem? hgt
      have hprvkey : prv.Key = none :=
        hw.2.2.2.1 s0 hs0mem prv hprvmem (hprvid ▸ hs0t)
      have hwa := WF_eraseKeylessNode hw hgt hprvkey
      have hsa := sorted_eraseIdx hs (m.KeyList.findIdx (fun s => s.Id == tid))
      have hsplit := List.take_append_drop (m.KeyList.findIdx (fun s => s.Id == tid))
        (m.KeyList.eraseIdx (m.KeyList.findIdx (fun s => s.Id == tid)))
      have := WF_eraseAllLoop
        ((m.KeyList.eraseIdx (m.KeyList.findIdx (fun s => s.Id == tid))).drop
          (m.KeyList.findIdx (fun s => s.Id == tid)))
        ((m.KeyList.eraseIdx (m.KeyList.findIdx (fun s => s.Id == tid))).take
          (m.KeyList.findIdx (fun s => s.Id == tid)))
        m.Index m.OrderIdxSpacing m.NextId
        (by rw [hsplit]; exact hwa) (by rw [hsplit]; exact hsa)
      exact ⟨this.1, this.2, hsp⟩

theorem Inv_erase {m : MultiValueMap K V} (hi : Inv m) (k : K) :
    Inv (erase m k).1 := by
  unfold erase
  dsimp only
  split
  · exact hi
  · exact Inv_eraseIt hi _

theorem Inv_eraseAll {m : MultiValueMap K V} (hi : Inv m) (k : K) :
    Inv (eraseAll m k).1 := by
  unfold eraseAll
  dsimp only
  split
  · exact hi
  · exact Inv_eraseAllIt hi _

theorem Inv_clear {m : MultiValueMap K V} (hi : Inv m) : Inv (clear m) := by
  obtain ⟨hw, hs, hsp⟩ := hi
  refine ⟨⟨?_, ?_, ?_, ?_, ?_, ?_, ?_⟩, ?_, hsp⟩ <;> simp [clear, IdxSorted]

theorem Inv_push_back {m : MultiValueMap K V} (hi : Inv m) (k : K) (v : V) :
    Inv (push_back m k v).1 :=
  Inv_insert hi none k v

theorem Inv_onKeyReplaced {m : MultiValueMap K V} (hi : Inv m)
    (oldK newK : K) : Inv (onKeyReplaced m oldK newK) := by
  unfold onKeyReplaced
  dsimp only
  split
  · have h1 : Inv (eraseIt m (find m newK)).1 := Inv_eraseIt hi _
    split
    · exact Inv_eraseIt (Inv_insertRight h1 _ _) _
    · exact h1
  · split
    · exact Inv_eraseIt (Inv_insertRight hi _ _) _
    · exact hi

theorem Inv_onKeyDeleted {m : MultiValueMap K V} (hi : Inv m) (k : K) :
    Inv (onKeyDeleted m k) := by
  unfold onKeyDeleted
  dsimp only
  split
  · exact Inv_eraseIt hi _
  · exact hi

end OpInv

/-! ### The invariant holds after every sequence of public operations -/

section RunInv

open MultiValueMap

theorem Inv_mk0 : Inv (mk0 : MultiValueMap Nat Nat) := by
  refine ⟨⟨?_, ?_, ?_, ?_, ?_, ?_, ?_⟩, ?_, ?_⟩ <;> simp [mk0, IdxSorted]

theorem Inv_step {m : MultiValueMap Nat Nat} (hi : Inv m) (op : Op) :
    Inv (step m op) := by
  cases op with
  | opInsert P k v => exact Inv_insert hi P k v
  | opInsertLeft P k => exact Inv_insertLeft hi P k
  | opInsertRight P k => exact Inv_insertRight hi P k
  | opErase k => exact Inv_erase hi k
  | opEraseIt P => exact Inv_eraseIt hi P
  | opEraseAll k => exact Inv_eraseAll hi k
  | opEraseAllIt P => exact Inv_eraseAllIt hi P
  | opPushBack k v => exact Inv_push_back hi k v
  | opClear => exact Inv_clear hi
  | opKeyReplaced k1 k2 => exact Inv_onKeyReplaced hi k1 k2
  | opKeyDeleted k => exact Inv_onKeyDeleted hi k

theorem Inv_foldl (ops : List Op) :
    ∀ m : MultiValueMap Nat Nat, Inv m → Inv (ops.foldl step m) := by
  induction ops with
  | nil => exact fun m hm => hm
  | cons op rest ih => exact fun m hm => ih _ (Inv_step hm op)

theorem Inv_runOps (ops : List Op) : Inv (runOps ops) :=
  Inv_foldl ops _ Inv_mk0

end RunInv

/-! ### Support lemmas for the claim theorems -/

section ClaimSupport

open MultiValueMap

variable {K V : Type} [DecidableEq K]

theorem indexFind_indexInsert_self (idx : List (K × Nat)) (k : K) (n : Nat) :
    indexFind (indexInsert idx k n) k = some n := by
  induction idx with
  | nil => simp [indexInsert, indexFind]
  | cons p rest ih =>
    by_cases hk : p.1 = k
    · simp [indexInsert, hk, indexFind]
    · simp [indexInsert, hk, indexFind, ih]

theorem listInsertAt_length_append (l : List (KeyListItemT K V))
    (a : KeyListItemT K V) : listInsertAt l l.length a = l ++ [a] := by
  unfold listInsertAt
  rw [List.take_length, List.drop_length]

theorem insertionPointerForNewList_end (m : MultiValueMap K V) :
    insertionPointerForNewList m none = m.KeyList.length := by
  unfold insertionPointerForNewList
  dsimp only
  rw [if_pos]
  · rfl
  · right
    rfl

theorem find?_fresh_pair {l : List (KeyListItemT K V)} {n : Nat}
    (hids : ∀ s ∈ l, s.Id < n) {tg itm : KeyListItemT K V}
    (htg : tg.Id = n) (hitm : itm.Id = n + 1) (p : Nat) :
    (l.take p ++ tg :: itm :: l.drop p).find? (fun s => s.Id == n + 1) =
        some itm ∧
      (l.take p ++ tg :: itm :: l.drop p).find? (fun s => s.Id == n) = some tg := by
  have htake : ∀ s ∈ l.take p, s.Id < n :=
    fun s hs => hids s ((List.take_sublist p l).subset hs)
  have h1 : (l.take p).find? (fun s => s.Id == n + 1) = none := by
    rw [List.find?_eq_none]
    intro s hs
    have := htake s hs
    simp
    omega
  have h2 : (l.take p).find? (fun s => s.Id == n) = none := by
    rw [List.find?_eq_none]
    intro s hs
    have := htake s hs
    simp
    omega
  constructor
  · rw [List.find?_append, h1]
    rw [List.find?_cons_of_neg _ (by simp [htg])]
    rw [List.find?_cons_of_pos _ (by simp [hitm])]
    rfl
  · rw [List.find?_append, h2]
    rw [List.find?_cons_of_pos _ (by simp [htg])]
    rfl

theorem filtered_nodup_length_le_one {l : List (KeyListItemT K V)}
    (hnd : l.Nodup) {s : KeyListItemT K V}
    (hall : ∀ x ∈ l, x = s) : l.length ≤ 1 := by
  cases l with
  | nil => simp
  | cons a rest =>
    cases rest with
    | nil => simp
    | cons b rest2 =>
      exfalso
      have ha : a = s := hall a (by simp)
      have hb : b = s := hall b (by simp)
      rw [List.nodup_cons] at hnd
      exact hnd.1 (by rw [ha, ← hb]; simp)

theorem keyCount_eq_count {m : MultiValueMap K V} (hw : WF m) (k : K) :
    keyCount m k = count m k := by
  obtain ⟨h1, h2, h3, h4, h5, h6, h7⟩ := hw
  unfold keyCount count
  cases hidx : indexFind m.Index k with
  | none =>
    rw [if_neg (by simp [hidx])]
    rw [List.countP_eq_zero]
    intro s hs hp
    rw [decide_eq_true_eq] at hp
    have := indexFind_eq_none_iff.1 hidx (k, s.Id) (h7 s hs k hp)
    exact this rfl
  | some nid =>
    rw [if_pos (by simp [hidx])]
    obtain ⟨s, hs, hsid, hskey, hsval⟩ := h6 (k, nid) (indexFind_mem hidx)
    dsimp only at hsid hskey
    rw [List.countP_eq_length_filter]
    have hone : ∀ x ∈ m.KeyList.filter (fun x => decide (x.Key = some k)), x = s := by
      intro x hx
      rw [List.mem_filter, decide_eq_true_eq] at hx
      have hex : (k, x.Id) ∈ m.Index := h7 x hx.1 k hx.2
      have hfx := indexFind_of_mem h5 hex
      rw [hidx] at hfx
      injection hfx with hfx
      exact nodupIds_mem_inj h1 hx.1 hs (by rw [← hfx, hsid])
    have hle : (m.KeyList.filter (fun x => decide (x.Key = some k))).length ≤ 1 :=
      filtered_nodup_length_le_one
        ((List.filter_sublist _).nodup (h1.of_map _)) hone
    have hge : 0 < (m.KeyList.filter (fun x => decide (x.Key = some k))).length := by
      rw [List.length_pos]
      intro hnil
      have : s ∈ m.KeyList.filter (fun x => decide (x.Key = some k)) :=
        List.mem_filter.2 ⟨hs, by simp [hskey]⟩
      rw [hnil] at this
      simp at this
    omega

theorem count_le_one (m : MultiValueMap K V) (k : K) : count m k ≤ 1 := by
  unfold count
  split <;> omega

end ClaimSupport

/-! ### Traversal-order support (for C3) -/

section TraversalSupport

open MultiValueMap

variable {K V : Type} [DecidableEq K]

theorem iterAtPos_of_ge {m : MultiValueMap K V} {q : Nat}
    (h : m.KeyList.length ≤ q) : iterAtPos m q = none := by
  unfold iterAtPos
  rw [List.getElem?_eq_none h]
  rfl

theorem slotById_iterAtPos {m : MultiValueMap K V}
    (hn : (m.KeyList.map (·.Id)).Nodup) {q : Nat} (hq : q < m.KeyList.length) :
    slotById m (iterAtPos m q) = some (m.KeyList[q]) := by
  unfold iterAtPos
  rw [List.getElem?_eq_getElem hq]
  exact slotById_of_mem hn (List.getElem_mem _)

theorem posOfIter_iterAtPos {m : MultiValueMap K V}
    (hn : (m.KeyList.map (·.Id)).Nodup) (q : Nat) :
    posOfIter m (iterAtPos m q) = min q m.KeyList.length := by
  rcases Nat.lt_or_ge q m.KeyList.length with hq | hq
  · unfold iterAtPos
    rw [List.getElem?_eq_getElem hq]
    show posOfIter m (some (m.KeyList[q]).Id) = _
    unfold posOfIter
    dsimp only
    rw [findIdx_id_getElem hn hq, Nat.min_eq_left (le_of_lt hq)]
  · rw [iterAtPos_of_ge hq]
    show m.KeyList.length = _
    omega

theorem pos_skipTagForward_ge {m : MultiValueMap K V}
    (hn : (m.KeyList.map (·.Id)).Nodup) (it : Iter) :
    posOfIter m it ≤ posOfIter m (skipTagForward m it) := by
  unfold skipTagForward
  cases hsl : slotById m it with
  | none => exact le_refl _
  | some s =>
    dsimp only
    by_cases htg : isTag s = true
    · rw [if_pos htg]
      cases it with
      | none => simp [slotById] at hsl
      | some i =>
        obtain ⟨hsm, hsid⟩ := slotById_spec hsl
        have hpos := posOfIter_of_mem hn hsm
        rw [hsid] at hpos
        rw [posOfIter_iterAtPos hn]
        omega
    · rw [if_neg htg]

theorem travOk_iterAtPos (m : MultiValueMap K V) (x : Nat) :
    iterAtPos m x = none ∨
      ∃ q, q < m.KeyList.length ∧ iterAtPos m x = iterAtPos m q := by
  rcases Nat.lt_or_ge x m.KeyList.length with h | h
  · exact Or.inr ⟨x, h, rfl⟩
  · exact Or.inl (iterAtPos_of_ge h)

theorem travOk_skipTagForward {m : MultiValueMap K V}
    (hn : (m.KeyList.map (·.Id)).Nodup) {it : Iter}
    (h : it = none ∨ ∃ q, q < m.KeyList.length ∧ it = iterAtPos m q) :
    skipTagForward m it = none ∨
      ∃ q, q < m.KeyList.length ∧ skipTagForward m it = iterAtPos m q := by
  rcases h with h | ⟨q, hq, h⟩
  · subst h
    exact Or.inl (skipTagForward_none m)
  · subst h
    unfold skipTagForward
    rw [slotById_iterAtPos hn hq]
    dsimp only
    by_cases htg : isTag (m.KeyList[q]) = true
    · rw [if_pos htg]
      exact travOk_iterAtPos m _
    · rw [if_neg htg]
      exact Or.inr ⟨q, hq, rfl⟩

theorem travOk_iterNext {m : MultiValueMap K V}
    (hn : (m.KeyList.map (·.Id)).Nodup) (it : Iter) :
    iterNext m it = none ∨
      ∃ q, q < m.KeyList.length ∧ iterNext m it = iterAtPos m q := by
  unfold iterNext
  exact travOk_skipTagForward hn (travOk_iterAtPos m _)

theorem travOk_traversal {m : MultiValueMap K V}
    (hn : (m.KeyList.map (·.Id)).Nodup) (p : Nat) :
    (iterNext m)^[p] (beginIter m) = none ∨
      ∃ q, q < m.KeyList.length ∧
        (iterNext m)^[p] (beginIter m) = iterAtPos m q := by
  cases p with
  | zero => exact travOk_iterAtPos m 0
  | succ p =>
    rw [Function.iterate_succ_apply']
    exact travOk_iterNext hn _

theorem iterNext_none (m : MultiValueMap K V) : iterNext m none = none := by
  unfold iterNext
  rw [skipTagForward_none]
  show skipTagForward m (iterAtPos m (m.KeyList.length + 1)) = none
  rw [iterAtPos_of_ge (by omega)]
  exact skipTagForward_none m

theorem iterate_iterNext_none (m : MultiValueMap K V) (j : Nat) :
    (iterNext m)^[j] none = none := by
  induction j with
  | zero => rfl
  | succ j ih => rw [Function.iterate_succ_apply', ih, iterNext_none]

theorem pos_iterNext_ge {m : MultiValueMap K V}
    (hn : (m.KeyList.map (·.Id)).Nodup) (it : Iter) :
    min (posOfIter m (skipTagForward m it) + 1) m.KeyList.length ≤
      posOfIter m (iterNext m it) := by
  unfold iterNext
  dsimp only
  have h1 := pos_skipTagForward_ge hn
    (iterAtPos m (posOfIter m (skipTagForward m it) + 1))
  have h2 := posOfIter_iterAtPos hn (posOfIter m (skipTagForward m it) + 1)
  omega

theorem pos_iterNext_mono {m : MultiValueMap K V}
    (hn : (m.KeyList.map (·.Id)).Nodup) (it : Iter) :
    posOfIter m it ≤ posOfIter m (iterNext m it) := by
  have h1 := pos_skipTagForward_ge hn it
  have h2 := pos_iterNext_ge hn it
  have h3 := posOfIter_le_length m (skipTagForward m it)
  omega

theorem pos_iterate_mono {m : MultiValueMap K V}
    (hn : (m.KeyList.map (·.Id)).Nodup) (j : Nat) (it : Iter) :
    posOfIter m it ≤ posOfIter m ((iterNext m)^[j] it) := by
  induction j generalizing it with
  | zero => exact le_refl _
  | succ j ih =>
    calc posOfIter m it ≤ posOfIter m (iterNext m it) := pos_iterNext_mono hn it
      _ ≤ posOfIter m ((iterNext m)^[j] (iterNext m it)) := ih _
      _ = posOfIter m ((iterNext m)^[j + 1] it) := by
          rw [Function.iterate_succ_apply]

theorem derefIter_none (m : MultiValueMap K V) : derefIter m none = none := by
  unfold derefIter
  rw [skipTagForward_none]
  rfl

theorem iterLE_of_traversal {m : MultiValueMap K V} (hw : WF m)
    (hs : IdxSorted m) {a : Iter}
    (hta : a = none ∨ ∃ q, q < m.KeyList.length ∧ a = iterAtPos m q)
    (n : Nat) (hn1 : 1 ≤ n)
    (hder : (derefIter m ((iterNext m)^[n] a)).isSome = true) :
    iterLE m a ((iterNext m)^[n] a) = true := by
  have hn := hw.1
  obtain ⟨n', rfl⟩ : ∃ n', n = n' + 1 := ⟨n - 1, by omega⟩
  -- the right operand is a live position
  have htb : (iterNext m)^[n' + 1] a = none ∨
      ∃ q, q < m.KeyList.length ∧
        (iterNext m)^[n' + 1] a = iterAtPos m q := by
    rw [Function.iterate_succ_apply']
    exact travOk_iterNext hn _
  rcases htb with hb | ⟨qb, hqb, hb⟩
  · rw [hb, derefIter_none] at hder
    cases hder
  unfold iterLE
  dsimp only
  by_cases heq : (skipTagForward m a == (iterNext m)^[n' + 1] a) = true
  · rw [if_pos heq]
  · rw [if_neg heq]
    -- the skipped left operand is a live position as well
    have hta1 := travOk_skipTagForward hn hta
    rcases hta1 with ha1 | ⟨qa, hqa, ha1⟩
    · -- skipped `a` is end(): then every successor is end(), contradiction
      exfalso
      have hnx : iterNext m a = none := by
        unfold iterNext
        rw [ha1]
        show skipTagForward m (iterAtPos m (m.KeyList.length + 1)) = none
        rw [iterAtPos_of_ge (by omega)]
        exact skipTagForward_none m
      have : (iterNext m)^[n' + 1] a = none := by
        rw [Function.iterate_succ_apply, hnx, iterate_iterNext_none]
      rw [this, derefIter_none] at hder
      cases hder
    · -- compare order indices through sortedness
      have hposa1 : posOfIter m (skipTagForward m a) = qa := by
        rw [ha1, posOfIter_iterAtPos hn, Nat.min_eq_left (le_of_lt hqa)]
      have hposb : posOfIter m ((iterNext m)^[n' + 1] a) = qb := by
        rw [hb, posOfIter_iterAtPos hn, Nat.min_eq_left (le_of_lt hqb)]
      have hstep : min (posOfIter m (skipTagForward m a) + 1)
          m.KeyList.length ≤ posOfIter m (iterNext m a) :=
        pos_iterNext_ge hn a
      have hmono : posOfIter m (iterNext m a) ≤
          posOfIter m ((iterNext m)^[n' + 1] a) := by
        rw [Function.iterate_succ_apply]
        exact pos_iterate_mono hn n' _
      have hlt : qa < qb := by
        rw [hposa1] at hstep
        rw [hposb] at hmono
        omega
      rw [ha1, hb, slotById_iterAtPos hn hqa, slotById_iterAtPos hn hqb]
      rw [decide_eq_true_eq]
      exact sorted_getElem_le hs hqa hqb (le_of_lt hlt)

end TraversalSupport

/-! ### Group-structure support (for C2) -/

section C2Support

open MultiValueMap

variable {K V : Type} [DecidableEq K]

theorem getElem?_eraseIdx_lt {l : List (KeyListItemT K V)} {q j : Nat}
    (h : j < q) : (l.eraseIdx q)[j]? = l[j]? := by
  rw [List.eraseIdx_eq_take_drop_succ]
  rcases Nat.lt_or_ge j l.length with hj | hj
  · rw [List.getElem?_append, if_pos (by simp [List.length_take]; omega),
      List.getElem?_take, if_pos h]
  · rw [List.getElem?_eq_none hj, List.getElem?_eq_none]
    simp [List.length_take, List.length_drop]
    omega

theorem getElem?_eraseIdx_ge {l : List (KeyListItemT K V)} {q j : Nat}
    (h : q ≤ j) (h2 : q < l.length) :
    (l.eraseIdx q)[j]? = l[j + 1]? := by
  rw [List.eraseIdx_eq_take_drop_succ]
  rw [List.getElem?_append, if_neg (by simp [List.length_take]; omega),
    List.getElem?_drop]
  congr 1
  simp [List.length_take]
  omega

theorem indexFind_indexInsert_ne {idx : List (K × Nat)} {k k' : K} (n : Nat)
    (hne : k' ≠ k) : indexFind (indexInsert idx k n) k' = indexFind idx k' := by
  induction idx with
  | nil =>
    unfold indexInsert indexFind
    rw [if_neg (fun h => hne h.symm)]
    rfl
  | cons p rest ih =>
    unfold indexInsert
    by_cases hp : p.1 = k
    · rw [if_pos hp]
      unfold indexFind
      rw [if_neg (fun h => hne h.symm), if_neg (fun h => hne (hp ▸ h).symm)]
    · rw [if_neg hp]
      unfold indexFind
      by_cases hp2 : p.1 = k'
      · rw [if_pos hp2, if_pos hp2]
      · rw [if_neg hp2, if_neg hp2]
        exact ih

theorem find_eq_indexFind (m : MultiValueMap K V) (k : K) :
    find m k = indexFind m.Index k := by
  unfold find
  cases indexFind m.Index k <;> rfl

theorem findIdx_id_of_getElem? {l : List (KeyListItemT K V)}
    (hn : (l.map (·.Id)).Nodup) {j : Nat} {s : KeyListItemT K V}
    (hj : l[j]? = some s) : l.findIdx (fun x => x.Id == s.Id) = j := by
  obtain ⟨hjl, hg⟩ := List.getElem?_eq_some.1 hj
  have h := findIdx_id_getElem hn hjl
  rw [hg] at h
  exact h

/-- In a well-grouped list suffix, every item node has a closest preceding
tag, its `TagIt` names that tag, and no tag sits strictly between them; an
item with no preceding tag can only occur when the accumulator carries a
group (`tid.isSome`). -/
theorem groupRun_item_prevTag {l : List (KeyListItemT K V)} :
    ∀ {tid : Option Nat}, groupRun tid l = true →
    ∀ r, ∀ hr : r < l.length, isTag l[r] = false →
      (∃ p, ∃ hp : p < l.length, p < r ∧ isTag l[p] = true ∧
        l[r].TagIt = some (l[p]).Id ∧
        (∀ j, ∀ hj : j < l.length, p < j → j < r → isTag l[j] = false)) ∨
      (l[r].TagIt = tid ∧ tid.isSome = true ∧
        (∀ j, ∀ hj : j < l.length, j < r → isTag l[j] = false)) := by
  induction l with
  | nil => intro tid hg r hr; simp at hr
  | cons s rest ih =>
    intro tid hg r hr hitem
    by_cases hts : isTag s
    · rw [groupRun, if_pos hts] at hg
      rw [Bool.and_eq_true, Bool.and_eq_true] at hg
      obtain ⟨⟨hkey, htg⟩, hrest⟩ := hg
      cases r with
      | zero => rw [List.getElem_cons_zero] at hitem; rw [hitem] at hts; exact absurd hts (by simp)
      | succ r2 =>
        have hr2 : r2 < rest.length := by simpa using hr
        rw [List.getElem_cons_succ] at hitem
        rcases ih hrest r2 hr2 hitem with ⟨p, hp, hpr, hptag, hptagit, hbet⟩ | ⟨htagit, _, hnone⟩
        · refine Or.inl ⟨p + 1, by simpa using hp, by omega, by simpa using hptag,
            by simpa using hptagit, ?_⟩
          intro j hj h1 h2
          cases j with
          | zero => omega
          | succ j2 =>
            rw [List.getElem_cons_succ]
            exact hbet j2 (by simpa using hj) (by omega) (by omega)
        · refine Or.inl ⟨0, by simp, by omega, hts, ?_, ?_⟩
          · rw [List.getElem_cons_succ, List.getElem_cons_zero, htagit]
          · intro j hj h1 h2
            cases j with
            | zero => omega
            | succ j2 =>
              rw [List.getElem_cons_succ]
              exact hnone j2 (by simpa using hj) (by omega)
    · rw [groupRun, if_neg hts] at hg
      rw [Bool.and_eq_true, Bool.and_eq_true, Bool.and_eq_true] at hg
      obtain ⟨⟨⟨hkey, htid⟩, htg⟩, hrest⟩ := hg
      cases r with
      | zero =>
        refine Or.inr ⟨?_, htid, ?_⟩
        · rw [List.getElem_cons_zero]
          rw [beq_iff_eq] at htg
          exact htg
        · intro j hj h1; omega
      | succ r2 =>
        have hr2 : r2 < rest.length := by simpa using hr
        rw [List.getElem_cons_succ] at hitem
        rcases ih hrest r2 hr2 hitem with ⟨p, hp, hpr, hptag, hptagit, hbet⟩ | ⟨htagit, _, hnone⟩
        · refine Or.inl ⟨p + 1, by simpa using hp, by omega, by simpa using hptag,
            by simpa using hptagit, ?_⟩
          intro j hj h1 h2
          cases j with
          | zero => omega
          | succ j2 =>
            rw [List.getElem_cons_succ]
            exact hbet j2 (by simpa using hj) (by omega) (by omega)
        · refine Or.inr ⟨by simpa using htagit, htid, ?_⟩
          intro j hj h1
          cases j with
          | zero => exact (Bool.eq_false_iff.2 hts)
          | succ j2 =>
            rw [List.getElem_cons_succ]
            exact hnone j2 (by simpa using hj) (by omega)

/-- If an item's group holds a second item, erasing the first cannot make the
`erase(iterator)` "group emptied" test fire: either the node after the erased
position is not a tag, or the node before it is not the group's tag. -/
theorem emptied_false_of_sibling {l : List (KeyListItemT K V)}
    (hg : groupRun none l = true) (hn : (l.map (·.Id)).Nodup)
    {q : Nat} (hq : q < l.length) (hitem : isTag l[q] = false)
    {t : Nat} (ht : l[q].TagIt = some t)
    {s : KeyListItemT K V} (hs : s ∈ l) (hsne : s ≠ l[q]) (hsitem : isTag s = false)
    (hst : s.TagIt = some t) :
    ∀ nxt prv, (l.eraseIdx q)[q]? = some nxt → (l.eraseIdx q)[q - 1]? = some prv →
      isTag nxt = false ∨ prv.Id ≠ t := by
  intro nxt prv hnx hpv
  by_contra hcon
  push_neg at hcon
  obtain ⟨hnxt, hprv⟩ := hcon
  simp only [ne_eq, Bool.not_eq_false] at hnxt
  rcases groupRun_item_prevTag hg q hq hitem with ⟨P0, hP0, hP0q, _, htagit0, _⟩ |
    ⟨_, habs, _⟩
  swap
  · simp at habs
  have hq1 : q ≥ 1 := by omega
  rw [getElem?_eraseIdx_ge (le_refl q) hq] at hnx
  obtain ⟨hq1lt, hnxe⟩ := List.getElem?_eq_some.1 hnx
  rw [getElem?_eraseIdx_lt (by omega)] at hpv
  obtain ⟨hqm1lt, hpve⟩ := List.getElem?_eq_some.1 hpv
  obtain ⟨r, hr, hlr⟩ := List.mem_iff_getElem.1 hs
  have hrq : r ≠ q := by
    intro he
    subst he
    exact hsne hlr.symm
  have hritem : isTag l[r] = false := by rw [hlr]; exact hsitem
  rcases groupRun_item_prevTag hg r hr hritem with ⟨P, hP, hPr, hPtag, hPtagit, hbet⟩ |
    ⟨_, habs, _⟩
  swap
  · simp at habs
  have hPid : (l[P]).Id = t := by
    rw [hlr] at hPtagit
    rw [hPtagit] at hst
    exact Option.some_injective _ hst
  have hPq : P = q - 1 := by
    by_contra hne2
    exact nodupIds_getElem_ne hn hP hqm1lt hne2 (by rw [hPid, hpve, hprv])
  have hrge : q + 1 ≤ r := by omega
  rcases eq_or_lt_of_le hrge with he | hlt
  · subst he
    rw [hnxe] at hlr
    rw [← hlr] at hsitem
    rw [hsitem] at hnxt
    exact Bool.false_ne_true hnxt
  · have hbt := hbet (q + 1) hq1lt (by omega) (by omega)
    rw [hnxe] at hbt
    rw [hbt] at hnxt
    exact Bool.false_ne_true hnxt

theorem listInsertAt_getElem?_succ {l : List (KeyListItemT K V)} {p : Nat}
    {a : KeyListItemT K V} (hp : p ≤ l.length) :
    (listInsertAt l p a)[p + 1]? = l[p]? := by
  have h := @listInsertAt_getElem?_gt K V _ l p (p + 1) a hp (by omega)
  rw [Nat.add_sub_cancel] at h
  exact h

/-- Effect of `erase(iterator)` at a present key's item slot: the index entry
is dropped, the allocation counter is untouched, the slot list only shrinks,
and a slot survives if it is a different item, a different group's tag, or
the group's own tag while another item of the group remains. -/
theorem eraseIt_present_spec {m : MultiValueMap K V} (hw : WF m)
    (hg : wellGrouped m = true) {k : K} {nid : Nat}
    (hidx : indexFind m.Index k = some nid) {sK : KeyListItemT K V}
    (hsKmem : sK ∈ m.KeyList) (hsKid : sK.Id = nid) (hsKkey : sK.Key = some k)
    (hsKval : sK.Value = none) :
    (eraseIt m (find m k)).1.Index = indexErase m.Index k ∧
    (eraseIt m (find m k)).1.NextId = m.NextId ∧
    (∀ x ∈ (eraseIt m (find m k)).1.KeyList, x ∈ m.KeyList) ∧
    (∀ s ∈ m.KeyList, s ≠ sK → s.Key.isSome = true →
      s ∈ (eraseIt m (find m k)).1.KeyList) ∧
    (∀ s ∈ m.KeyList, s.Key = none → sK.TagIt ≠ some s.Id →
      s ∈ (eraseIt m (find m k)).1.KeyList) ∧
    (∀ s ∈ m.KeyList, s.Key = none → sK.TagIt = some s.Id →
      (∃ s2 ∈ m.KeyList, s2 ≠ sK ∧ isTag s2 = false ∧ s2.TagIt = some s.Id) →
      s ∈ (eraseIt m (find m k)).1.KeyList) := by
  subst hsKid
  have hn := hw.1
  obtain ⟨hf1, hf2, sK0, hsK0mem, hsK0id, hsK0key, hsK0val⟩ := find_present hw hidx
  obtain ⟨hq, hq2⟩ := posOfIter_of_mem hn hsKmem
  have hget : m.KeyList[posOfIter m (some sK.Id)] = sK := by
    rw [List.getElem?_eq_getElem hq] at hq2
    exact Option.some_injective _ hq2
  have hitem : isTag sK = false := isTag_false_of_value_none hsKval
  have hch :
      (eraseIt m (find m k)).1 =
          { m with KeyList := m.KeyList.eraseIdx (posOfIter m (some sK.Id)),
                   Index := indexErase m.Index k } ∨
        ((eraseIt m (find m k)).1 =
            { m with
                KeyList :=
                  (m.KeyList.eraseIdx (posOfIter m (some sK.Id))).eraseIdx
                    ((m.KeyList.eraseIdx (posOfIter m (some sK.Id))).findIdx
                      (fun s => some s.Id == sK.TagIt)),
                Index := indexErase m.Index k } ∧
          ∃ nxt prv,
            (m.KeyList.eraseIdx (posOfIter m (some sK.Id)))[posOfIter m
                (some sK.Id)]? = some nxt ∧
            (m.KeyList.eraseIdx (posOfIter m (some sK.Id)))[posOfIter m
                (some sK.Id) - 1]? = some prv ∧
            isTag nxt = true ∧ some prv.Id = sK.TagIt) := by
    unfold eraseIt
    dsimp only
    rw [hf2, hq2]
    dsimp only
    rw [hsKkey]
    dsimp only
    split
    · next hemp =>
      refine Or.inr ⟨rfl, ?_⟩
      cases hnx : (m.KeyList.eraseIdx (posOfIter m (some sK.Id)))[posOfIter m
          (some sK.Id)]? with
      | none =>
        rw [hnx] at hemp
        dsimp only at hemp
        exact absurd hemp (by simp)
      | some nxt =>
        cases hpv : (m.KeyList.eraseIdx (posOfIter m (some sK.Id)))[posOfIter m
            (some sK.Id) - 1]? with
        | none =>
          rw [hnx, hpv] at hemp
          dsimp only at hemp
          exact absurd hemp (by simp)
        | some prv =>
          rw [hnx, hpv] at hemp
          dsimp only at hemp
          rw [Bool.and_eq_true] at hemp
          obtain ⟨he1, he2⟩ := hemp
          rw [beq_iff_eq] at he2
          exact ⟨nxt, prv, rfl, rfl, he1, he2⟩
    · next hemp => exact Or.inl rfl
  rcases hch with hE | ⟨hE, nxt, prv, hnx, hpv, hnxt, hprv⟩
  · rw [hE]
    refine ⟨rfl, rfl, ?_, ?_, ?_, ?_⟩
    · intro x hx
      exact mem_of_mem_eraseIdx hx
    · intro s hs hne2 _
      exact mem_eraseIdx_of_ne hq hs (by rw [hget]; exact hne2)
    · intro s hs hkey _
      have hsne : s ≠ sK := by
        intro he
        rw [he, hsKkey] at hkey
        simp at hkey
      exact mem_eraseIdx_of_ne hq hs (by rw [hget]; exact hsne)
    · intro s hs hkey _ _
      have hsne : s ≠ sK := by
        intro he
        rw [he, hsKkey] at hkey
        simp at hkey
      exact mem_eraseIdx_of_ne hq hs (by rw [hget]; exact hsne)
  · rw [hE]
    have h4 := hw.2.2.2.1
    refine ⟨rfl, rfl, ?_, ?_, ?_, ?_⟩
    · intro x hx
      exact mem_of_mem_eraseIdx (mem_of_mem_eraseIdx hx)
    · intro s hs hne2 hkeysome
      have hs1 : s ∈ m.KeyList.eraseIdx (posOfIter m (some sK.Id)) :=
        mem_eraseIdx_of_ne hq hs (by rw [hget]; exact hne2)
      by_cases htp :
          (m.KeyList.eraseIdx (posOfIter m (some sK.Id))).findIdx
            (fun s => some s.Id == sK.TagIt) <
          (m.KeyList.eraseIdx (posOfIter m (some sK.Id))).length
      · have hpred := @List.findIdx_getElem _ (fun s => some s.Id == sK.TagIt)
          (m.KeyList.eraseIdx (posOfIter m (some sK.Id))) htp
        rw [beq_iff_eq] at hpred
        have hmemTag :
            (m.KeyList.eraseIdx (posOfIter m (some sK.Id)))[
              (m.KeyList.eraseIdx (posOfIter m (some sK.Id))).findIdx
                (fun s => some s.Id == sK.TagIt)] ∈ m.KeyList :=
          mem_of_mem_eraseIdx (List.getElem_mem _)
        have hkeyNone :
            ((m.KeyList.eraseIdx (posOfIter m (some sK.Id)))[
              (m.KeyList.eraseIdx (posOfIter m (some sK.Id))).findIdx
                (fun s => some s.Id == sK.TagIt)]).Key = none :=
          h4 sK hsKmem _ hmemTag hpred.symm
        refine mem_eraseIdx_of_ne htp hs1 ?_
        intro he
        rw [he, hkeyNone] at hkeysome
        simp at hkeysome
      · rw [List.eraseIdx_of_length_le (le_of_not_lt htp)]
        exact hs1
    · intro s hs hkey htagne
      have hsne : s ≠ sK := by
        intro he
        rw [he, hsKkey] at hkey
        simp at hkey
      have hs1 : s ∈ m.KeyList.eraseIdx (posOfIter m (some sK.Id)) :=
        mem_eraseIdx_of_ne hq hs (by rw [hget]; exact hsne)
      by_cases htp :
          (m.KeyList.eraseIdx (posOfIter m (some sK.Id))).findIdx
            (fun s => some s.Id == sK.TagIt) <
          (m.KeyList.eraseIdx (posOfIter m (some sK.Id))).length
      · have hpred := @List.findIdx_getElem _ (fun s => some s.Id == sK.TagIt)
          (m.KeyList.eraseIdx (posOfIter m (some sK.Id))) htp
        rw [beq_iff_eq] at hpred
        refine mem_eraseIdx_of_ne htp hs1 ?_
        intro he
        rw [← he] at hpred
        exact htagne hpred.symm
      · rw [List.eraseIdx_of_length_le (le_of_not_lt htp)]
        exact hs1
    · intro s hs hkey htageq hsib
      exfalso
      obtain ⟨s2, hs2mem, hs2ne, hs2item, hs2tag⟩ := hsib
      have hgr : groupRun none m.KeyList = true := hg
      have hitemq : isTag m.KeyList[posOfIter m (some sK.Id)] = false := by
        rw [hget]
        exact hitem
      have htq : (m.KeyList[posOfIter m (some sK.Id)]).TagIt = some s.Id := by
        rw [hget]
        exact htageq
      have hs2neq : s2 ≠ m.KeyList[posOfIter m (some sK.Id)] := by
        rw [hget]
        exact hs2ne
      have hdisj := emptied_false_of_sibling hgr hn hq hitemq htq hs2mem hs2neq
        hs2item hs2tag nxt prv hnx hpv
      rcases hdisj with hdf | hdne
      · rw [hdf] at hnxt
        exact Bool.false_ne_true hnxt
      · rw [htageq] at hprv
        exact hdne (Option.some_injective _ hprv)

/-- Effect of the reattachment steps of `onRAUW` when the old key's item slot
is live: `insertRight` at the old item's position puts a fresh item for
`newKey` (sharing the old item's `TagIt`) right before it, and the subsequent
positional erase drops exactly the old item and its index entry.  Afterwards
`oldKey` is unindexed, `newKey` is indexed at the fresh item, the fresh item
carries the old group's tag, the group's tag slot is untouched, and every
other item slot survives. -/
theorem onKeyReplaced_stage23 {m1 m3 : MultiValueMap K V} {oldK newK : K}
    {oid : Nat} (hi1 : Inv m1) {sOld : KeyListItemT K V}
    (hsOldmem : sOld ∈ m1.KeyList) (hsOldid : sOld.Id = oid)
    (hsOldkey : sOld.Key = some oldK) (hsOldval : sOld.Value = none)
    (hnewabs : indexFind m1.Index newK = none) (hne : oldK ≠ newK)
    (hm3 : m3 = (eraseIt (insertRight m1 (some oid) newK).1 (some oid)).1) :
    indexFind m3.Index oldK = none ∧
    indexFind m3.Index newK = some m1.NextId ∧
    (∃ NI, slotById m3 (some m1.NextId) = some NI ∧ NI ∈ m3.KeyList ∧
      NI.Key = some newK ∧ NI.TagIt = sOld.TagIt) ∧
    slotById m3 sOld.TagIt = slotById m1 sOld.TagIt ∧
    (∀ s ∈ m1.KeyList, s.Key.isSome = true → s.Key ≠ some oldK →
      s ∈ m3.KeyList) := by
  subst hsOldid
  subst hm3
  obtain ⟨hw1, hsort1, hsp1⟩ := hi1
  have hn1 := hw1.1
  have hitem : isTag sOld = false := isTag_false_of_value_none hsOldval
  have hskip : skipTagForward m1 (some sOld.Id) = some sOld.Id :=
    skipTagForward_item hn1 hsOldmem hitem
  obtain ⟨hq, hq2⟩ := posOfIter_of_mem hn1 hsOldmem
  have hip : rightInsertionPointer m1 (some sOld.Id) =
      (posOfIter m1 (some sOld.Id), sOld.TagIt) := by
    unfold rightInsertionPointer
    dsimp only
    rw [if_neg (by omega)]
    rw [hskip, hq2]
  have hm2 : (insertRight m1 (some sOld.Id) newK).1 =
      { m1 with
          KeyList := listInsertAt m1.KeyList (posOfIter m1 (some sOld.Id))
            ⟨none, some newK, sOld.TagIt,
              orderIdxForNewElem m1 (posOfIter m1 (some sOld.Id)), m1.NextId⟩,
          Index := indexInsert m1.Index newK m1.NextId,
          NextId := m1.NextId + 1 } := by
    unfold insertRight
    dsimp only
    rw [hskip]
    rw [if_neg (by simp)]
    rw [hnewabs]
    rw [if_neg (by simp)]
    rw [hip]
  have hi2 : Inv (insertRight m1 (some sOld.Id) newK).1 :=
    Inv_insertRight ⟨hw1, hsort1, hsp1⟩ _ _
  rw [hm2] at hi2
  obtain ⟨hw2, hsort2, hsp2⟩ := hi2
  have hn2 := hw2.1
  have hple : posOfIter m1 (some sOld.Id) ≤ m1.KeyList.length := le_of_lt hq
  have hgNI : (listInsertAt m1.KeyList (posOfIter m1 (some sOld.Id))
      ⟨none, some newK, sOld.TagIt,
        orderIdxForNewElem m1 (posOfIter m1 (some sOld.Id)),
        m1.NextId⟩)[posOfIter m1 (some sOld.Id)]? =
      some ⟨none, some newK, sOld.TagIt,
        orderIdxForNewElem m1 (posOfIter m1 (some sOld.Id)), m1.NextId⟩ :=
    listInsertAt_getElem?_self hple
  have hgOld2 : (listInsertAt m1.KeyList (posOfIter m1 (some sOld.Id))
      ⟨none, some newK, sOld.TagIt,
        orderIdxForNewElem m1 (posOfIter m1 (some sOld.Id)),
        m1.NextId⟩)[posOfIter m1 (some sOld.Id) + 1]? = some sOld := by
    rw [listInsertAt_getElem?_succ hple]
    exact hq2
  have hlen2 : (listInsertAt m1.KeyList (posOfIter m1 (some sOld.Id))
      ⟨none, some newK, sOld.TagIt,
        orderIdxForNewElem m1 (posOfIter m1 (some sOld.Id)),
        m1.NextId⟩).length = m1.KeyList.length + 1 :=
    listInsertAt_length _ _ _
  have hq4 : posOfIter m1 (some sOld.Id) + 1 <
      (listInsertAt m1.KeyList (posOfIter m1 (some sOld.Id))
        ⟨none, some newK, sOld.TagIt,
          orderIdxForNewElem m1 (posOfIter m1 (some sOld.Id)),
          m1.NextId⟩).length := by
    rw [hlen2]
    omega
  have hgetOld2 : (listInsertAt m1.KeyList (posOfIter m1 (some sOld.Id))
      ⟨none, some newK, sOld.TagIt,
        orderIdxForNewElem m1 (posOfIter m1 (some sOld.Id)),
        m1.NextId⟩)[posOfIter m1 (some sOld.Id) + 1] = sOld := by
    rw [List.getElem?_eq_getElem hq4] at hgOld2
    exact Option.some_injective _ hgOld2
  rw [hm2]
  have hsOldmem2 : sOld ∈ listInsertAt m1.KeyList (posOfIter m1 (some sOld.Id))
      ⟨none, some newK, sOld.TagIt,
        orderIdxForNewElem m1 (posOfIter m1 (some sOld.Id)), m1.NextId⟩ :=
    mem_listInsertAt.2 (Or.inr hsOldmem)
  have hskip2 : skipTagForward
      { m1 with
          KeyList := listInsertAt m1.KeyList (posOfIter m1 (some sOld.Id))
            ⟨none, some newK, sOld.TagIt,
              orderIdxForNewElem m1 (posOfIter m1 (some sOld.Id)), m1.NextId⟩,
          Index := indexInsert m1.Index newK m1.NextId,
          NextId := m1.NextId + 1 } (some sOld.Id) = some sOld.Id :=
    skipTagForward_item hn2 hsOldmem2 hitem
  have hq3 : posOfIter
      { m1 with
          KeyList := listInsertAt m1.KeyList (posOfIter m1 (some sOld.Id))
            ⟨none, some newK, sOld.TagIt,
              orderIdxForNewElem m1 (posOfIter m1 (some sOld.Id)), m1.NextId⟩,
          Index := indexInsert m1.Index newK m1.NextId,
          NextId := m1.NextId + 1 } (some sOld.Id) =
      posOfIter m1 (some sOld.Id) + 1 := by
    unfold posOfIter
    exact findIdx_id_of_getElem? hn2 hgOld2
  have hfresh : sOld.Id < m1.NextId := hw1.2.1 sOld hsOldmem
  have hbeq : (some m1.NextId == sOld.TagIt) = false := by
    cases hT : sOld.TagIt with
    | none => rfl
    | some t =>
      have hlt := hw1.2.2.1 sOld hsOldmem t hT
      rw [beq_eq_false_iff_ne]
      intro hcon
      injection hcon with hcon2
      omega
  have hm3eq : (eraseIt
      { m1 with
          KeyList := listInsertAt m1.KeyList (posOfIter m1 (some sOld.Id))
            ⟨none, some newK, sOld.TagIt,
              orderIdxForNewElem m1 (posOfIter m1 (some sOld.Id)), m1.NextId⟩,
          Index := indexInsert m1.Index newK m1.NextId,
          NextId := m1.NextId + 1 } (some sOld.Id)).1 =
      { m1 with
          KeyList := (listInsertAt m1.KeyList (posOfIter m1 (some sOld.Id))
            ⟨none, some newK, sOld.TagIt,
              orderIdxForNewElem m1 (posOfIter m1 (some sOld.Id)),
              m1.NextId⟩).eraseIdx (posOfIter m1 (some sOld.Id) + 1),
          Index := indexErase (indexInsert m1.Index newK m1.NextId) oldK,
          NextId := m1.NextId + 1 } := by
    unfold eraseIt
    dsimp only
    rw [hskip2, hq3, hgOld2]
    dsimp only
    rw [hsOldkey]
    dsimp only
    split
    · next hemp =>
      exfalso
      rw [Nat.add_sub_cancel] at hemp
      rw [getElem?_eraseIdx_lt (Nat.lt_succ_self _), hgNI] at hemp
      cases hnq : ((listInsertAt m1.KeyList (posOfIter m1 (some sOld.Id))
          ⟨none, some newK, sOld.TagIt,
            orderIdxForNewElem m1 (posOfIter m1 (some sOld.Id)),
            m1.NextId⟩).eraseIdx (posOfIter m1 (some sOld.Id) + 1))[
          posOfIter m1 (some sOld.Id) + 1]? with
      | none =>
        rw [hnq] at hemp
        dsimp only at hemp
        exact absurd hemp (by simp)
      | some nxt =>
        rw [hnq] at hemp
        dsimp only at hemp
        rw [Bool.and_eq_true] at hemp
        obtain ⟨he1, he2⟩ := hemp
        rw [hbeq] at he2
        exact Bool.false_ne_true he2
    · next hemp => rfl
  rw [hm3eq]
  have hi3 : Inv (eraseIt
      { m1 with
          KeyList := listInsertAt m1.KeyList (posOfIter m1 (some sOld.Id))
            ⟨none, some newK, sOld.TagIt,
              orderIdxForNewElem m1 (posOfIter m1 (some sOld.Id)), m1.NextId⟩,
          Index := indexInsert m1.Index newK m1.NextId,
          NextId := m1.NextId + 1 } (some sOld.Id)).1 :=
    Inv_eraseIt ⟨hw2, hsort2, hsp2⟩ _
  rw [hm3eq] at hi3
  have hn3 := hi3.1.1
  have hNImem2 : (⟨none, some newK, sOld.TagIt,
      orderIdxForNewElem m1 (posOfIter m1 (some sOld.Id)), m1.NextId⟩ :
        KeyListItemT K V) ∈
      listInsertAt m1.KeyList (posOfIter m1 (some sOld.Id))
        ⟨none, some newK, sOld.TagIt,
          orderIdxForNewElem m1 (posOfIter m1 (some sOld.Id)), m1.NextId⟩ :=
    mem_getElem? hgNI
  have hNIneOld : (⟨none, some newK, sOld.TagIt,
      orderIdxForNewElem m1 (posOfIter m1 (some sOld.Id)), m1.NextId⟩ :
        KeyListItemT K V) ≠ sOld := by
    intro he
    have hid : m1.NextId = sOld.Id := congrArg KeyListItemT.Id he
    omega
  have hNImem3 : (⟨none, some newK, sOld.TagIt,
      orderIdxForNewElem m1 (posOfIter m1 (some sOld.Id)), m1.NextId⟩ :
        KeyListItemT K V) ∈
      (listInsertAt m1.KeyList (posOfIter m1 (some sOld.Id))
        ⟨none, some newK, sOld.TagIt,
          orderIdxForNewElem m1 (posOfIter m1 (some sOld.Id)),
          m1.NextId⟩).eraseIdx (posOfIter m1 (some sOld.Id) + 1) :=
    mem_eraseIdx_of_ne hq4 hNImem2 (by rw [hgetOld2]; exact hNIneOld)
  refine ⟨?_, ?_, ?_, ?_, ?_⟩
  · exact indexFind_indexErase_self hw2.2.2.2.2.1
  · rw [indexFind_indexErase_ne (Ne.symm hne)]
    exact indexFind_indexInsert_self _ _ _
  · exact ⟨_, slotById_of_mem hn3 hNImem3, hNImem3, rfl, rfl⟩
  · have hdgen : ∀ it : Option Nat,
        (∀ t, it = some t → t < m1.NextId) →
        (∀ sT, sT ∈ m1.KeyList → ∀ t, it = some t → sT.Id = t →
          sT.Key = none) →
        slotById
          { m1 with
              KeyList := (listInsertAt m1.KeyList (posOfIter m1 (some sOld.Id))
                ⟨none, some newK, sOld.TagIt,
                  orderIdxForNewElem m1 (posOfIter m1 (some sOld.Id)),
                  m1.NextId⟩).eraseIdx (posOfIter m1 (some sOld.Id) + 1),
              Index := indexErase (indexInsert m1.Index newK m1.NextId) oldK,
              NextId := m1.NextId + 1 } it = slotById m1 it := by
      intro it hbound hkeyless
      cases it with
      | none => rfl
      | some t =>
        have hlt : t < m1.NextId := hbound t rfl
        by_cases hex : ∃ sT ∈ m1.KeyList, sT.Id = t
        · obtain ⟨sT, hsTmem, hsTid⟩ := hex
          have hsTkey : sT.Key = none := hkeyless sT hsTmem t rfl hsTid
          have hsTne : sT ≠ sOld := by
            intro he
            rw [he, hsOldkey] at hsTkey
            simp at hsTkey
          have hsT2 : sT ∈ listInsertAt m1.KeyList (posOfIter m1 (some sOld.Id))
              ⟨none, some newK, sOld.TagIt,
                orderIdxForNewElem m1 (posOfIter m1 (some sOld.Id)),
                m1.NextId⟩ :=
            mem_listInsertAt.2 (Or.inr hsTmem)
          have hsT3 : sT ∈ (listInsertAt m1.KeyList (posOfIter m1 (some sOld.Id))
              ⟨none, some newK, sOld.TagIt,
                orderIdxForNewElem m1 (posOfIter m1 (some sOld.Id)),
                m1.NextId⟩).eraseIdx (posOfIter m1 (some sOld.Id) + 1) :=
            mem_eraseIdx_of_ne hq4 hsT2 (by rw [hgetOld2]; exact hsTne)
          have hone : slotById m1 (some t) = some sT := by
            rw [← hsTid]
            exact slotById_of_mem hn1 hsTmem
          have htwo : slotById
              { m1 with
                  KeyList := (listInsertAt m1.KeyList
                    (posOfIter m1 (some sOld.Id))
                    ⟨none, some newK, sOld.TagIt,
                      orderIdxForNewElem m1 (posOfIter m1 (some sOld.Id)),
                      m1.NextId⟩).eraseIdx (posOfIter m1 (some sOld.Id) + 1),
                  Index := indexErase (indexInsert m1.Index newK m1.NextId)
                    oldK,
                  NextId := m1.NextId + 1 } (some t) = some sT := by
            rw [← hsTid]
            exact slotById_of_mem hn3 hsT3
          rw [hone, htwo]
        · push_neg at hex
          have hone : slotById m1 (some t) = none := slotById_eq_none hex
          have htwo : slotById
              { m1 with
                  KeyList := (listInsertAt m1.KeyList
                    (posOfIter m1 (some sOld.Id))
                    ⟨none, some newK, sOld.TagIt,
                      orderIdxForNewElem m1 (posOfIter m1 (some sOld.Id)),
                      m1.NextId⟩).eraseIdx (posOfIter m1 (some sOld.Id) + 1),
                  Index := indexErase (indexInsert m1.Index newK m1.NextId)
                    oldK,
                  NextId := m1.NextId + 1 } (some t) = none := by
            apply slotById_eq_none
            intro s hs
            rcases mem_listInsertAt.1 (mem_of_mem_eraseIdx hs) with he | hm
            · rw [he]
              intro hcon
              have hcon2 : m1.NextId = t := hcon
              omega
            · exact hex s hm
          rw [hone, htwo]
    exact hdgen sOld.TagIt (fun t ht => hw1.2.2.1 sOld hsOldmem t ht)
      (fun sT hsTmem t ht hid =>
        hw1.2.2.2.1 sOld hsOldmem sT hsTmem (by rw [ht, hid]))
  · intro s hs hkeysome hkeyne
    have hsmem2 : s ∈ listInsertAt m1.KeyList (posOfIter m1 (some sOld.Id))
        ⟨none, some newK, sOld.TagIt,
          orderIdxForNewElem m1 (posOfIter m1 (some sOld.Id)), m1.NextId⟩ :=
      mem_listInsertAt.2 (Or.inr hs)
    have hsne : s ≠ sOld := by
      intro he
      rw [he, hsOldkey] at hkeyne
      exact hkeyne rfl
    exact mem_eraseIdx_of_ne hq4 hsmem2 (by rw [hgetOld2]; exact hsne)

end C2Support

/-! ### Claim theorems -/

section Claims

open MultiValueMap

/-- C9: for every container state, `clear()` leaves the container empty:
afterwards `size() == 0`, `empty() == true`, and `find(k) == end()` for every
key `k`. -/
theorem C9_clear_resets (m : MultiValueMap Nat Nat) (k : Nat) :
    size (clear m) = 0 ∧ empty (clear m) = true ∧
      find (clear m) k = endIter (clear m) :=
  ⟨rfl, rfl, rfl⟩

/-- C6: after every sequence of public operations (insert, insertLeft,
insertRight, erase, eraseAll, and the rest of the interface), `count k` is 0
or 1 for every key `k`, and the number of item slots holding `k` equals
`count k`: every live key has exactly one index entry and belongs to exactly
one group. -/
theorem C6_count_at_most_one (ops : List Op) (k : Nat) :
    count (runOps ops) k ≤ 1 ∧
      keyCount (runOps ops) k = count (runOps ops) k :=
  ⟨count_le_one _ _, keyCount_eq_count (Inv_runOps ops).1 k⟩

/-- C5: from the empty map, `insert(begin(), (A,10))`, `insert(end(), (B,30))`,
`insertLeft(posOf B, C)` (keys A=1, B=2, C=3) produce the iteration sequence
A(10), C(10), B(30), with C attached to A's group:
`getAssociatedValues A = [A, C]`. -/
theorem C5_build_groups_scenario :
    (let m0 : MultiValueMap Nat Nat := mk0
     let m1 := (MultiValueMap.insert m0 (beginIter m0) 1 10).1
     let m2 := (MultiValueMap.insert m1 (endIter m1) 2 30).1
     let r := insertLeft m2 (find m2 2) 3
     toPairs r.1 = [(1, 10), (3, 10), (2, 30)] ∧ r.2.2 = true ∧
       getAssociatedValues r.1 1 = some [1, 3]) := by
  decide

/-- C4 (bug demonstration): build the sole two-member group {B=2, A=1} → 10,
erase B then A.  The claim says the group's tag slot and owned value are
removed once the last item goes; instead, erasing the item that is the final
node of the list makes the source dereference `end()` (undefined behaviour),
and under the benign reading of that read the tag is left in the list: `find`
on both keys is `end()` and `size() == 0`, but `empty()` is still false and a
slot owning the value 10 survives. -/
theorem C4_erase_tag_leak_bug :
    (let m0 : MultiValueMap Nat Nat := mk0
     let m1 := (MultiValueMap.insert m0 (beginIter m0) 1 10).1
     let m2 := (insertRight m1 (find m1 1) 2).1
     let m3 := (erase m2 2).1
     let r := erase m3 1
     r.2 = true ∧ find r.1 1 = none ∧ find r.1 2 = none ∧
       size r.1 = 0 ∧ empty r.1 = false ∧
       ∃ t ∈ r.1.KeyList, t.Value = some 10) := by
  decide

/-- C10: `push_back(K, V)` returns the same (iterator, bool) result and final
state as `insert(end(), K, V)`; when the key is absent it appends a fresh
single-key group (a tag owning `v` followed by one item holding `k`, linked
to that tag) at the very end of the sequence. -/
theorem C10_push_back_equiv (m : MultiValueMap Nat Nat) (k v : Nat) :
    push_back m k v = MultiValueMap.insert m (endIter m) k v ∧
    (indexFind m.Index k = none →
      ∃ t i : KeyListItemT Nat Nat,
        (push_back m k v).1.KeyList = m.KeyList ++ [t, i] ∧
        (push_back m k v).2 = (some i.Id, true) ∧
        isTag t = true ∧ t.Value = some v ∧ isTag i = false ∧
        i.Key = some k ∧ i.TagIt = some t.Id) := by
  constructor
  · rfl
  · intro habs
    have hfind : find m k = none := by
      unfold find
      rw [habs]
    unfold push_back MultiValueMap.insert
    dsimp only
    rw [hfind]
    rw [if_neg (by simp [skipTagForward_none])]
    rw [insertionPointerForNewList_end, listInsertAt_length_append]
    have h2 : ∀ tg2 itm2 : KeyListItemT Nat Nat,
        listInsertAt (m.KeyList ++ [tg2]) (m.KeyList.length + 1) itm2 =
          m.KeyList ++ [tg2, itm2] := by
      intro tg2 itm2
      have hlen : m.KeyList.length + 1 = (m.KeyList ++ [tg2]).length := by simp
      rw [hlen, listInsertAt_length_append, List.append_assoc]
      rfl
    rw [h2]
    exact ⟨_, _, rfl, rfl, rfl, rfl, rfl, rfl, rfl⟩

/-- Witness for C10 at a concrete input. -/
theorem C10_push_back_equiv_witness :
    push_back (mk0 : MultiValueMap Nat Nat) 7 42 =
        MultiValueMap.insert (mk0 : MultiValueMap Nat Nat)
          (endIter (mk0 : MultiValueMap Nat Nat)) 7 42 ∧
      ∃ t i : KeyListItemT Nat Nat,
        (push_back (mk0 : MultiValueMap Nat Nat) 7 42).1.KeyList =
            (mk0 : MultiValueMap Nat Nat).KeyList ++ [t, i] ∧
          (push_back (mk0 : MultiValueMap Nat Nat) 7 42).2 = (some i.Id, true) ∧
          isTag t = true ∧ t.Value = some 42 ∧ isTag i = false ∧
          i.Key = some 7 ∧ i.TagIt = some t.Id :=
  ⟨(C10_push_back_equiv mk0 7 42).1, (C10_push_back_equiv mk0 7 42).2 rfl⟩

/-- C7: `insertLeft` called with `P == begin()` and `insertRight` called with
`P == end()` fail, returning the (comparison-skipped) iterator `P` with
`false` and leaving the container unchanged; both also fail whenever the key
is already present anywhere in the map. -/
theorem C7_insert_position_failures (m : MultiValueMap Nat Nat) (P : Iter)
    (k : Nat) :
    (iterEq m P (endIter m) = true →
      insertRight m P k = (m, skipTagForward m P, false)) ∧
    (iterEq m P (beginIter m) = true →
      insertLeft m P k = (m, skipTagForward m P, false)) ∧
    ((indexFind m.Index k).isSome = true →
      insertRight m P k = (m, skipTagForward m P, false) ∧
        insertLeft m P k = (m, skipTagForward m P, false)) := by
  refine ⟨?_, ?_, ?_⟩
  · intro h
    have hskip : skipTagForward m P = none := by
      unfold iterEq at h
      simpa using h
    unfold insertRight
    dsimp only
    rw [if_pos hskip, hskip]
  · intro h
    have heq : skipTagForward m P = skipTagForward m (beginIter m) := by
      unfold iterEq at h
      simpa using h
    unfold insertLeft
    dsimp only
    rw [if_pos heq]
  · intro h
    constructor
    · unfold insertRight
      dsimp only
      by_cases hsk : skipTagForward m P = none
      · rw [if_pos hsk, hsk]
      · rw [if_neg hsk, if_pos h]
    · unfold insertLeft
      dsimp only
      by_cases hsk : skipTagForward m P = skipTagForward m (beginIter m)
      · rw [if_pos hsk]
      · rw [if_neg hsk, if_pos h]

/-- Witness for C7: concrete failing calls. -/
theorem C7_insert_position_failures_witness :
    (let m1 := (MultiValueMap.insert (mk0 : MultiValueMap Nat Nat) none 1 10).1
     insertRight m1 none 5 = (m1, skipTagForward m1 none, false) ∧
       insertLeft m1 (find m1 1) 5 =
         (m1, skipTagForward m1 (find m1 1), false) ∧
       insertRight m1 (find m1 1) 1 =
         (m1, skipTagForward m1 (find m1 1), false)) := by
  refine ⟨?_, ?_, ?_⟩
  · exact (C7_insert_position_failures _ none 5).1 (by decide)
  · exact (C7_insert_position_failures _ _ 5).2.1 (by decide)
  · exact ((C7_insert_position_failures _ _ 1).2.2 (by decide)).1

/-- C8: every mutating operation that reports failure leaves the container
unchanged: `erase(k)` and `eraseAll(k)` on an absent key return `false` with
the state (hence `size()`) untouched, and whenever `insert`, `insertLeft` or
`insertRight` report `false` the state is also untouched. -/
theorem C8_failure_atomicity (m : MultiValueMap Nat Nat) (P : Iter)
    (k v : Nat) :
    (indexFind m.Index k = none →
      erase m k = (m, false) ∧ eraseAll m k = (m, false)) ∧
    ((MultiValueMap.insert m P k v).2.2 = false →
      (MultiValueMap.insert m P k v).1 = m) ∧
    ((insertLeft m P k).2.2 = false → (insertLeft m P k).1 = m) ∧
    ((insertRight m P k).2.2 = false → (insertRight m P k).1 = m) ∧
    ((erase m k).2 = false → (erase m k).1 = m) ∧
    ((eraseAll m k).2 = false → (eraseAll m k).1 = m) := by
  have hfind : indexFind m.Index k = none → find m k = none := by
    intro h
    unfold find
    rw [h]
  refine ⟨?_, ?_, ?_, ?_, ?_, ?_⟩
  · intro h
    constructor
    · unfold erase
      dsimp only
      rw [hfind h]
      rfl
    · unfold eraseAll
      dsimp only
      rw [hfind h]
      rfl
  · intro h
    unfold MultiValueMap.insert at h ⊢
    dsimp only at h ⊢
    by_cases hc : skipTagForward m (find m k) ≠ none
    · rw [if_pos hc]
    · rw [if_neg hc] at h
      simp at h
  · intro h
    unfold insertLeft at h ⊢
    dsimp only at h ⊢
    by_cases hc1 : skipTagForward m P = skipTagForward m (beginIter m)
    · rw [if_pos hc1]
    · rw [if_neg hc1] at h ⊢
      by_cases hc2 : (indexFind m.Index k).isSome = true
      · rw [if_pos hc2]
      · rw [if_neg hc2] at h
        simp at h
  · intro h
    unfold insertRight at h ⊢
    dsimp only at h ⊢
    by_cases hc1 : skipTagForward m P = none
    · rw [if_pos hc1]
    · rw [if_neg hc1] at h ⊢
      by_cases hc2 : (indexFind m.Index k).isSome = true
      · rw [if_pos hc2]
      · rw [if_neg hc2] at h
        simp at h
  · intro h
    unfold erase at h ⊢
    dsimp only at h ⊢
    by_cases hc : skipTagForward m (find m k) = none
    · rw [if_pos hc]
    · rw [if_neg hc] at h
      simp at h
  · intro h
    unfold eraseAll at h ⊢
    dsimp only at h ⊢
    by_cases hc : skipTagForward m (find m k) = none
    · rw [if_pos hc]
    · rw [if_neg hc] at h
      simp at h

/-- Witness for C8: a failing erase and a failing duplicate insert at
concrete inputs. -/
theorem C8_failure_atomicity_witness :
    (let m1 := (MultiValueMap.insert (mk0 : MultiValueMap Nat Nat) none 1 10).1
     (erase m1 9 = (m1, false) ∧ eraseAll m1 9 = (m1, false)) ∧
       (MultiValueMap.insert m1 none 1 20).1 = m1) := by
  refine ⟨(C8_failure_atomicity _ none 9 0).1 (by decide), ?_⟩
  exact (C8_failure_atomicity _ none 1 20).2.1 (by decide)

/-- C1: inserting an already-present key returns the existing position with
`false`, overwrites nothing and leaves the container unchanged; inserting an
absent key succeeds with `true` and an iterator at the new pair (found by
`find` and dereferencing to `(k, v)`). -/
theorem C1_insert_contract (m : MultiValueMap Nat Nat) (P : Iter) (k v : Nat)
    (hw : WF m) :
    (∀ nid, indexFind m.Index k = some nid →
      MultiValueMap.insert m P k v = (m, find m k, false) ∧
        find m k = some nid ∧
        ∃ s ∈ m.KeyList, s.Id = nid ∧ s.Key = some k) ∧
    (indexFind m.Index k = none →
      (MultiValueMap.insert m P k v).2.2 = true ∧
        find (MultiValueMap.insert m P k v).1 k =
          (MultiValueMap.insert m P k v).2.1 ∧
        derefIter (MultiValueMap.insert m P k v).1
          (MultiValueMap.insert m P k v).2.1 = some (k, v)) := by
  constructor
  · intro nid hidx
    obtain ⟨hfind, hskip, s, hs, hsid, hskey, _⟩ := find_present hw hidx
    refine ⟨?_, hfind, s, hs, hsid, hskey⟩
    unfold MultiValueMap.insert
    dsimp only
    rw [if_pos (by rw [hskip]; simp)]
    rw [hskip, hfind]
  · intro habs
    have hfind : find m k = none := by
      unfold find
      rw [habs]
    unfold MultiValueMap.insert
    dsimp only
    rw [hfind]
    rw [if_neg (by simp [skipTagForward_none])]
    rw [listInsertAt_succ]
    refine ⟨rfl, ?_, ?_⟩
    · unfold find
      rw [indexFind_indexInsert_self]
    · unfold derefIter skipTagForward slotById
      dsimp only
      rw [(find?_fresh_pair hw.2.1 rfl rfl (insertionPointerForNewList m P)).1]
      simp only [isTag, Option.isSome_none, Bool.false_eq_true, if_false]
      rw [(find?_fresh_pair hw.2.1 rfl rfl (insertionPointerForNewList m P)).1]
      dsimp only
      rw [(find?_fresh_pair hw.2.1 rfl rfl (insertionPointerForNewList m P)).2]
      simp

/-- Witness for C1: both branches at concrete inputs. -/
theorem C1_insert_contract_witness :
    (MultiValueMap.insert (runOps [.opInsert none 1 10]) none 1 20 =
        (runOps [.opInsert none 1 10], find (runOps [.opInsert none 1 10]) 1,
          false) ∧
      find (runOps [.opInsert none 1 10]) 1 = some 1 ∧
      ∃ s ∈ (runOps [.opInsert none 1 10]).KeyList,
        s.Id = 1 ∧ s.Key = some 1) ∧
    ((MultiValueMap.insert (runOps [.opInsert none 1 10]) none 2 20).2.2 =
        true ∧
      find (MultiValueMap.insert (runOps [.opInsert none 1 10]) none 2 20).1
          2 =
        (MultiValueMap.insert (runOps [.opInsert none 1 10]) none 2 20).2.1 ∧
      derefIter (MultiValueMap.insert (runOps [.opInsert none 1 10]) none 2
            20).1
          (MultiValueMap.insert (runOps [.opInsert none 1 10]) none 2 20).2.1 =
        some (2, 20)) := by
  constructor
  · exact (C1_insert_contract (runOps [.opInsert none 1 10]) none 1 20
      (Inv_runOps [.opInsert none 1 10]).1).1 1 (by decide)
  · exact (C1_insert_contract (runOps [.opInsert none 1 10]) none 2 20
      (Inv_runOps [.opInsert none 1 10]).1).2 (by decide)

/-- C3 (counterexample to the strict form): a concrete operation sequence
(two appends, then twelve inserts squeezed at B's item, exhausting the
order-index gap) after which the backing sequence is NOT strictly sorted by
`OrderIdx`: two slots `a` before `b` carry equal order indices. -/
theorem C3_order_counterexample :
    ¬ ((runOps [.opInsert none 1 10, .opInsert none 2 20,
        .opInsert (some 3) 100 100, .opInsert (some 3) 101 101,
        .opInsert (some 3) 102 102, .opInsert (some 3) 103 103,
        .opInsert (some 3) 104 104, .opInsert (some 3) 105 105,
        .opInsert (some 3) 106 106, .opInsert (some 3) 107 107,
        .opInsert (some 3) 108 108, .opInsert (some 3) 109 109,
        .opInsert (some 3) 110 110, .opInsert (some 3) 111 111]).KeyList.map
          (·.OrderIdx)).Pairwise (· < ·) := by
  decide

/-- C3 (amended): after every sequence of public operations the order
indices are non-decreasing along the backing sequence (`orderIndex(a) ≤
orderIndex(b)` for `a` before `b`; the strict form fails once the gap is
exhausted), and for iterators of one forward traversal, `a` produced before a
dereferenceable `b` satisfies `a <= b` via the relational operators. -/
theorem C3_order_nonstrict (ops : List Op) :
    ((runOps ops).KeyList.map (·.OrderIdx)).Pairwise (· ≤ ·) ∧
    (∀ p n, 1 ≤ n →
      (derefIter (runOps ops) ((iterNext (runOps ops))^[n]
          ((iterNext (runOps ops))^[p] (beginIter (runOps ops))))).isSome =
        true →
      iterLE (runOps ops)
        ((iterNext (runOps ops))^[p] (beginIter (runOps ops)))
        ((iterNext (runOps ops))^[n]
          ((iterNext (runOps ops))^[p] (beginIter (runOps ops)))) = true) := by
  have hi := Inv_runOps ops
  refine ⟨hi.2.1, ?_⟩
  intro p n hn1 hder
  exact iterLE_of_traversal hi.1 hi.2.1 (travOk_traversal hi.1.1 p) n hn1 hder

/-- Witness for C3 at a concrete run and traversal pair. -/
theorem C3_order_nonstrict_witness :
    ((runOps [.opInsert none 1 10, .opInsert none 2 20]).KeyList.map
        (·.OrderIdx)).Pairwise (· ≤ ·) ∧
    iterLE (runOps [.opInsert none 1 10, .opInsert none 2 20])
      ((iterNext (runOps [.opInsert none 1 10, .opInsert none 2 20]))^[0]
        (beginIter (runOps [.opInsert none 1 10, .opInsert none 2 20])))
      ((iterNext (runOps [.opInsert none 1 10, .opInsert none 2 20]))^[1]
        ((iterNext (runOps [.opInsert none 1 10, .opInsert none 2 20]))^[0]
          (beginIter (runOps [.opInsert none 1 10, .opInsert none 2 20])))) =
      true :=
  ⟨(C3_order_nonstrict [.opInsert none 1 10, .opInsert none 2 20]).1,
    (C3_order_nonstrict [.opInsert none 1 10, .opInsert none 2 20]).2 0 1
      (by decide) (by decide)⟩

/-- C2 (counterexample): with `oldKey` absent and `newKey` present
(`{Y=6} → 99`), `onKeyReplaced(X=5, Y=6)` does NOT leave the map unchanged:
`newKey`'s entry is erased first, so the "if oldKey is absent this is a
no-op" part of the claim is false. -/
theorem C2_onKeyReplaced_counterexample :
    (let m0 : MultiValueMap Nat Nat := mk0
     let m1 := (MultiValueMap.insert m0 (beginIter m0) 6 99).1
     onKeyReplaced m1 5 6 ≠ m1) := by
  decide

/-- C2 (amended): `onKeyReplaced(oldKey, newKey)` (the onRAUW hook) with
`oldKey ≠ newKey` on a well-formed, well-grouped map.  If `newKey` is present
its existing entry is erased first.  If `oldKey` is present, afterwards
`find(oldKey) == end()`, `newKey` is present exactly once and `find(newKey)`
yields `oldKey`'s value, and every other member of `oldKey`'s group is still
grouped with `newKey`.  If `oldKey` is absent and `newKey` is absent too, the
map is unchanged.  If `oldKey` is absent but `newKey` is present, the call is
NOT a no-op: the result is exactly that of `erase(newKey)`. -/
theorem C2_onKeyReplaced_amended {m : MultiValueMap Nat Nat} {oldK newK : Nat}
    (hi : Inv m) (hg : wellGrouped m = true) (hne : oldK ≠ newK) :
    (∀ oid, indexFind m.Index oldK = some oid →
      find (onKeyReplaced m oldK newK) oldK = none ∧
      count (onKeyReplaced m oldK newK) newK = 1 ∧
      lookup (onKeyReplaced m oldK newK) newK = lookup m oldK ∧
      (∀ k2, k2 ≠ oldK → k2 ≠ newK → sameGroup m oldK k2 →
        sameGroup (onKeyReplaced m oldK newK) newK k2)) ∧
    (indexFind m.Index oldK = none → indexFind m.Index newK = none →
      onKeyReplaced m oldK newK = m) ∧
    (indexFind m.Index oldK = none → (indexFind m.Index newK).isSome = true →
      onKeyReplaced m oldK newK = (erase m newK).1) := by
  obtain ⟨hw, hsort, hsp⟩ := hi
  have hn := hw.1
  refine ⟨?_, ?_, ?_⟩
  · intro oid hidx
    obtain ⟨hfold, hskipold, sOld, hsOldmem, hsOldid, hsOldkey, hsOldval⟩ :=
      find_present hw hidx
    subst hsOldid
    have hitemOld : isTag sOld = false := isTag_false_of_value_none hsOldval
    have hslotOld : slotById m (some sOld.Id) = some sOld :=
      slotById_of_mem hn hsOldmem
    cases hnew : indexFind m.Index newK with
    | none =>
      have hfn : find m newK = none := by rw [find_eq_indexFind, hnew]
      have hskipoldm : skipTagForward m (some sOld.Id) = some sOld.Id := by
        rw [hfold] at hskipold
        exact hskipold
      have hred : onKeyReplaced m oldK newK =
          (eraseIt (insertRight m (some sOld.Id) newK).1 (some sOld.Id)).1 := by
        unfold onKeyReplaced
        dsimp only
        rw [hfn, skipTagForward_none]
        rw [if_neg (show ¬((none : Iter) ≠ none) by simp)]
        rw [hfold, hskipoldm]
        rw [if_pos (show (some sOld.Id : Iter) ≠ none by simp)]
      obtain ⟨ha, hb, ⟨NI, hNIslot, hNImem, hNIkey, hNItag⟩, hd, he⟩ :=
        onKeyReplaced_stage23 ⟨hw, hsort, hsp⟩ hsOldmem rfl hsOldkey hsOldval
          hnew hne hred
      refine ⟨?_, ?_, ?_, ?_⟩
      · rw [find_eq_indexFind]
        exact ha
      · unfold count
        rw [hb]
        rfl
      · unfold lookup
        rw [hb, hidx]
        dsimp only
        rw [hNIslot, hslotOld, Option.some_bind, Option.some_bind, hNItag, hd]
      · intro k2 hk1 hk2 hsg
        obtain ⟨t, ⟨s1, hs1m, hs1k, hs1t⟩, ⟨s2, hs2m, hs2k, hs2t⟩⟩ := hsg
        have hs1idx : (oldK, s1.Id) ∈ m.Index :=
          hw.2.2.2.2.2.2 s1 hs1m oldK hs1k
        have hfind1 := indexFind_of_mem hw.2.2.2.2.1 hs1idx
        rw [hidx] at hfind1
        have hs1id : s1.Id = sOld.Id := Option.some_injective _ hfind1.symm
        have hs1eq : s1 = sOld := nodupIds_mem_inj hn hs1m hsOldmem hs1id
        rw [hs1eq] at hs1t
        refine ⟨t, ⟨NI, hNImem, hNIkey, ?_⟩, ⟨s2, ?_, hs2k, hs2t⟩⟩
        · rw [hNItag, hs1t]
        · refine he s2 hs2m (by rw [hs2k]; rfl) ?_
          rw [hs2k]
          intro hcon
          exact hk1 (Option.some_injective _ hcon)
    | some nid2 =>
      obtain ⟨hfn2, hskipn, sNew, hsNmem, hsNid, hsNkey, hsNval⟩ :=
        find_present hw hnew
      obtain ⟨hei, henx, hsub, hP1, hP2, hP3⟩ :=
        eraseIt_present_spec hw hg hnew hsNmem hsNid hsNkey hsNval
      have hiE : Inv (eraseIt m (find m newK)).1 :=
        Inv_eraseIt ⟨hw, hsort, hsp⟩ (find m newK)
      have hnE := hiE.1.1
      have hsOldneNew : sOld ≠ sNew := by
        intro hcon
        rw [hcon, hsNkey] at hsOldkey
        exact hne (Option.some_injective _ hsOldkey).symm
      have hsOldmemE : sOld ∈ (eraseIt m (find m newK)).1.KeyList :=
        hP1 sOld hsOldmem hsOldneNew (by rw [hsOldkey]; rfl)
      have hm1new : indexFind (eraseIt m (find m newK)).1.Index newK = none := by
        rw [hei]
        exact indexFind_indexErase_self hw.2.2.2.2.1
      have hskipE : skipTagForward (eraseIt m (find m newK)).1 (some sOld.Id) =
          some sOld.Id :=
        skipTagForward_item hnE hsOldmemE hitemOld
      have hred : onKeyReplaced m oldK newK =
          (eraseIt (insertRight (eraseIt m (find m newK)).1 (some sOld.Id)
            newK).1 (some sOld.Id)).1 := by
        unfold onKeyReplaced
        dsimp only
        rw [hskipn]
        rw [if_pos (show (some nid2 : Iter) ≠ none by simp)]
        rw [hfold, hskipE]
        rw [if_pos (show (some sOld.Id : Iter) ≠ none by simp)]
      have hF6 : slotById (eraseIt m (find m newK)).1 sOld.TagIt =
          slotById m sOld.TagIt := by
        cases hT : sOld.TagIt with
        | none => rfl
        | some t =>
          by_cases hex : ∃ sT ∈ m.KeyList, sT.Id = t
          · obtain ⟨sT, hsTmem, hsTid⟩ := hex
            have hsTkey : sT.Key = none :=
              hw.2.2.2.1 sOld hsOldmem sT hsTmem (by rw [hT, hsTid])
            have hsTinE : sT ∈ (eraseIt m (find m newK)).1.KeyList := by
              by_cases hsame : sNew.TagIt = some sT.Id
              · refine hP3 sT hsTmem hsTkey hsame
                  ⟨sOld, hsOldmem, hsOldneNew, hitemOld, ?_⟩
                rw [hT, hsTid]
              · exact hP2 sT hsTmem hsTkey hsame
            rw [← hsTid, slotById_of_mem hn hsTmem,
              slotById_of_mem hnE hsTinE]
          · push_neg at hex
            rw [slotById_eq_none hex,
              slotById_eq_none (fun s hs => hex s (hsub s hs))]
      obtain ⟨ha, hb, ⟨NI, hNIslot, hNImem, hNIkey, hNItag⟩, hd, he⟩ :=
        onKeyReplaced_stage23 hiE hsOldmemE rfl hsOldkey hsOldval hm1new hne
          hred
      refine ⟨?_, ?_, ?_, ?_⟩
      · rw [find_eq_indexFind]
        exact ha
      · unfold count
        rw [hb]
        rfl
      · unfold lookup
        rw [hb, hidx]
        dsimp only
        rw [hNIslot, hslotOld, Option.some_bind, Option.some_bind, hNItag, hd,
          hF6]
      · intro k2 hk1 hk2 hsg
        obtain ⟨t, ⟨s1, hs1m, hs1k, hs1t⟩, ⟨s2, hs2m, hs2k, hs2t⟩⟩ := hsg
        have hs1idx : (oldK, s1.Id) ∈ m.Index :=
          hw.2.2.2.2.2.2 s1 hs1m oldK hs1k
        have hfind1 := indexFind_of_mem hw.2.2.2.2.1 hs1idx
        rw [hidx] at hfind1
        have hs1id : s1.Id = sOld.Id := Option.some_injective _ hfind1.symm
        have hs1eq : s1 = sOld := nodupIds_mem_inj hn hs1m hsOldmem hs1id
        rw [hs1eq] at hs1t
        have hs2E : s2 ∈ (eraseIt m (find m newK)).1.KeyList := by
          refine hP1 s2 hs2m ?_ (by rw [hs2k]; rfl)
          intro hcon
          rw [hcon, hsNkey] at hs2k
          exact hk2 (Option.some_injective _ hs2k.symm)
        refine ⟨t, ⟨NI, hNImem, hNIkey, ?_⟩, ⟨s2, ?_, hs2k, hs2t⟩⟩
        · rw [hNItag, hs1t]
        · refine he s2 hs2E (by rw [hs2k]; rfl) ?_
          rw [hs2k]
          intro hcon
          exact hk1 (Option.some_injective _ hcon)
  · intro h1 h2
    have hfo : find m oldK = none := by rw [find_eq_indexFind, h1]
    have hfn : find m newK = none := by rw [find_eq_indexFind, h2]
    unfold onKeyReplaced
    dsimp only
    rw [hfn, skipTagForward_none]
    rw [if_neg (show ¬((none : Iter) ≠ none) by simp)]
    rw [hfo, skipTagForward_none]
    rw [if_neg (show ¬((none : Iter) ≠ none) by simp)]
  · intro h1 h2
    obtain ⟨nid2, hn2⟩ := Option.isSome_iff_exists.1 h2
    obtain ⟨hfn2, hskipn, sNew, hsNmem, hsNid, hsNkey, hsNval⟩ :=
      find_present hw hn2
    have hfo : find m oldK = none := by rw [find_eq_indexFind, h1]
    unfold onKeyReplaced erase
    dsimp only
    rw [hskipn]
    rw [if_pos (show (some nid2 : Iter) ≠ none by simp)]
    rw [if_neg (show ¬((some nid2 : Iter) = none) by simp)]
    rw [hfo, skipTagForward_none]
    rw [if_neg (show ¬((none : Iter) ≠ none) by simp)]

/-- Witness for C2 (amended), oldKey-present case at a concrete map: groups
{A=1, B=2} → 10 and {C=3} → 99; `onKeyReplaced(1, 3)` leaves `find(1)` at
`end()`, makes `find(3)` yield 10, and keeps key 2 grouped with key 3. -/
theorem C2_onKeyReplaced_amended_witness :
    (Inv (runOps [.opInsert none 1 10, .opInsertRight (some 1) 2,
        .opInsert none 3 99]) ∧
      wellGrouped (runOps [.opInsert none 1 10, .opInsertRight (some 1) 2,
        .opInsert none 3 99]) = true ∧ (1 : Nat) ≠ 3) ∧
    find (onKeyReplaced (runOps [.opInsert none 1 10,
      .opInsertRight (some 1) 2, .opInsert none 3 99]) 1 3) 1 = none ∧
    count (onKeyReplaced (runOps [.opInsert none 1 10,
      .opInsertRight (some 1) 2, .opInsert none 3 99]) 1 3) 3 = 1 ∧
    lookup (onKeyReplaced (runOps [.opInsert none 1 10,
        .opInsertRight (some 1) 2, .opInsert none 3 99]) 1 3) 3 =
      lookup (runOps [.opInsert none 1 10, .opInsertRight (some 1) 2,
        .opInsert none 3 99]) 1 ∧
    sameGroup (onKeyReplaced (runOps [.opInsert none 1 10,
      .opInsertRight (some 1) 2, .opInsert none 3 99]) 1 3) 3 2 := by
  have hI := Inv_runOps [.opInsert none 1 10, .opInsertRight (some 1) 2,
    .opInsert none 3 99]
  have hg : wellGrouped (runOps [.opInsert none 1 10,
      .opInsertRight (some 1) 2, .opInsert none 3 99]) = true := by decide
  have hA := (@C2_onKeyReplaced_amended (runOps [.opInsert none 1 10,
    .opInsertRight (some 1) 2, .opInsert none 3 99]) 1 3 hI hg
      (by decide)).1 1 (by decide)
  have hsg : sameGroup (runOps [.opInsert none 1 10,
      .opInsertRight (some 1) 2, .opInsert none 3 99]) 1 2 :=
    ⟨0, ⟨⟨none, some 1, some 0, 1048576, 1⟩, by decide, rfl, rfl⟩,
      ⟨⟨none, some 2, some 0, 524288, 2⟩, by decide, rfl, rfl⟩⟩
  exact ⟨⟨hI, hg, by decide⟩, hA.1, hA.2.1, hA.2.2.1,
    hA.2.2.2 2 (by decide) (by decide) hsg⟩

end Claims

end Taffo
